import Mathlib

/-!
Verification of the C0 compiler front-end (lexer and NFA/DFA toolkit).

The definitions below are a shallow embedding of the C sources:
`src/lexer.c`, `src/token.c`, `src/nfa_dfa.c` (with `token.h`, `lexer.h`,
`nfa_dfa.h`).  C strings are modelled as `List Char` without the NUL
terminator (C strings cannot contain NUL); indexing one past the end
yields the terminator `'\x00'`, which `charAt` models via a default.
C `while` loops are modelled as fuelled recursion; at every call site the
fuel is chosen large enough that, for well-formed states, the recursion
stops at the loop's own exit condition and never by fuel exhaustion.
-/

namespace C0

/-- The C string terminator '\0'. -/
def NUL : Char := '\x00'

/-- C string indexing `s[i]`: the character at `i`, or the NUL terminator
at `i = strlen(s)` (reads past that do not occur in the modelled code). -/
def charAt (s : List Char) (i : Nat) : Char := s.getD i NUL

/-- C `isspace` (ASCII/C locale): space, \t, \n, \v, \f, \r. -/
def cIsspace (c : Char) : Bool :=
  decide (c.toNat = 32 ∨ c.toNat = 9 ∨ c.toNat = 10 ∨ c.toNat = 11 ∨
    c.toNat = 12 ∨ c.toNat = 13)

/-- C `isdigit`. -/
def cIsdigit (c : Char) : Bool := decide (48 ≤ c.toNat ∧ c.toNat ≤ 57)

/-- C `isalpha` (ASCII/C locale). -/
def cIsalpha (c : Char) : Bool :=
  decide ((65 ≤ c.toNat ∧ c.toNat ≤ 90) ∨ (97 ≤ c.toNat ∧ c.toNat ≤ 122))

/-- C `isalnum`. -/
def cIsalnum (c : Char) : Bool := cIsalpha c || cIsdigit c

/-- C `isxdigit`. -/
def cIsxdigit (c : Char) : Bool :=
  cIsdigit c ||
    decide ((65 ≤ c.toNat ∧ c.toNat ≤ 70) ∨ (97 ≤ c.toNat ∧ c.toNat ≤ 102))

/- ===== token.h / token.c ===== -/

/-- TokenType enum from token.h. -/
inductive TokenType where
  | TOKEN_CONST | TOKEN_INT | TOKEN_DOUBLE | TOKEN_CHAR | TOKEN_VOID
  | TOKEN_IF | TOKEN_ELSE | TOKEN_WHILE | TOKEN_FOR | TOKEN_RETURN
  | TOKEN_BREAK | TOKEN_CONTINUE | TOKEN_STRUCT
  | TOKEN_IDENTIFIER | TOKEN_INT_CONST | TOKEN_DOUBLE_CONST
  | TOKEN_CHAR_CONST | TOKEN_STRING_CONST
  | TOKEN_PLUS | TOKEN_MINUS | TOKEN_MULTIPLY | TOKEN_DIVIDE | TOKEN_MODULO
  | TOKEN_ASSIGN | TOKEN_EQ | TOKEN_NE | TOKEN_LT | TOKEN_LE | TOKEN_GT
  | TOKEN_GE | TOKEN_AND | TOKEN_OR | TOKEN_NOT
  | TOKEN_SEMICOLON | TOKEN_COMMA | TOKEN_LPAREN | TOKEN_RPAREN
  | TOKEN_LBRACE | TOKEN_RBRACE | TOKEN_LBRACKET | TOKEN_RBRACKET
  | TOKEN_EOF | TOKEN_ERROR
  deriving DecidableEq, Repr

open TokenType

/-- Token struct from token.h.  The C value union is modelled by the two
fields read by the code (`int_value`, `char_value`); the `double_value`
member is floating point and is not modelled (no modelled code reads it).
The union is uninitialized after `create_token`; the fields here default
to 0 / NUL and are overwritten by the callers that set them in C. -/
structure Token where
  type : TokenType
  lexeme : List Char
  line : Nat
  column : Nat
  int_value : Int
  char_value : Char
  deriving DecidableEq, Repr

/-- create_token from token.c (value union left to a default). -/
def create_token (t : TokenType) (lexeme : List Char) (line column : Nat) :
    Token :=
  { type := t, lexeme := lexeme, line := line, column := column,
    int_value := 0, char_value := NUL }

/-- The keyword table from token.h. -/
def keywords : List (List Char × TokenType) :=
  [("const".toList, TOKEN_CONST), ("int".toList, TOKEN_INT),
   ("double".toList, TOKEN_DOUBLE), ("char".toList, TOKEN_CHAR),
   ("void".toList, TOKEN_VOID), ("if".toList, TOKEN_IF),
   ("else".toList, TOKEN_ELSE), ("while".toList, TOKEN_WHILE),
   ("for".toList, TOKEN_FOR), ("return".toList, TOKEN_RETURN),
   ("break".toList, TOKEN_BREAK), ("continue".toList, TOKEN_CONTINUE),
   ("struct".toList, TOKEN_STRUCT)]

/-- lookup_keyword from token.c: linear scan of the keyword table. -/
def lookup_keyword (s : List Char) : TokenType :=
  match keywords.find? (fun kv => kv.1 = s) with
  | some kv => kv.2
  | none => TOKEN_IDENTIFIER

/- ===== numeric decoding (strtoll/atoll as called by read_number) ===== -/

def LLONG_MAX : Int := 9223372036854775807

/-- Value of one hexadecimal digit, as strtoll interprets it. -/
def hexDigitVal (c : Char) : Int :=
  if 48 ≤ c.toNat ∧ c.toNat ≤ 57 then (c.toNat : Int) - 48
  else if 97 ≤ c.toNat ∧ c.toNat ≤ 102 then (c.toNat : Int) - 87
  else if 65 ≤ c.toNat ∧ c.toNat ≤ 70 then (c.toNat : Int) - 55
  else 0

/-- Base-16 value of a digit string. -/
def hexVal (s : List Char) : Int :=
  s.foldl (fun a c => 16 * a + hexDigitVal c) 0

/-- Base-10 value of a digit string. -/
def decVal (s : List Char) : Int :=
  s.foldl (fun a c => 10 * a + ((c.toNat : Int) - 48)) 0

/-- Model of `strtoll(s, NULL, 16)` on the lexemes read_number produces
(an optional 0x/0X prefix followed by hex digits; non-negative, no
leading whitespace or sign).  On overflow strtoll returns LLONG_MAX. -/
def strtoll16 (s : List Char) : Int :=
  let body :=
    match s with
    | c0 :: c1 :: rest => if c0 = '0' ∧ (c1 = 'x' ∨ c1 = 'X') then rest else s
    | _ => s
  let v := hexVal (body.takeWhile cIsxdigit)
  if v ≤ LLONG_MAX then v else LLONG_MAX

/-- Model of `atoll` on the all-decimal-digit lexemes read_number produces
(overflow is undefined behaviour in C and is not modelled). -/
def atoll (s : List Char) : Int := decVal (s.takeWhile cIsdigit)

/- ===== lexer.h / lexer.c ===== -/

/-- Lexer struct from lexer.h. -/
structure Lexer where
  source : List Char
  pos : Nat
  length : Nat
  line : Nat
  column : Nat
  current_char : Char
  deriving DecidableEq, Repr

/-- create_lexer from lexer.c: `current_char = source[0]` reads the NUL
terminator when the source is empty. -/
def create_lexer (source : List Char) : Lexer :=
  { source := source, pos := 0, length := source.length,
    line := 1, column := 1, current_char := charAt source 0 }

/-- advance from lexer.c. -/
def advance (l : Lexer) : Lexer :=
  if l.pos < l.length then
    let l1 : Lexer :=
      if l.current_char = '\n' then
        { l with line := l.line + 1, column := 1 }
      else
        { l with column := l.column + 1 }
    { l1 with
        pos := l.pos + 1
        current_char :=
          if l.pos + 1 < l.length then charAt l.source (l.pos + 1) else NUL }
  else l

/-- peek from lexer.c. -/
def peek (l : Lexer) : Char :=
  if l.pos + 1 < l.length then charAt l.source (l.pos + 1) else NUL

/-- The scanner-state invariant (spec §3 ScannerState): the
cached length is the source length, the offset never exceeds it, and the
lookahead is `source[pos]`, reading the NUL terminator at the end.  The
final conjunct records that a C source string contains no NUL byte. -/
def WF (l : Lexer) : Prop :=
  l.length = l.source.length ∧ l.pos ≤ l.length ∧
  l.current_char = (if l.pos < l.length then charAt l.source l.pos else NUL) ∧
  NUL ∉ l.source

instance (l : Lexer) : Decidable (WF l) := by
  unfold WF; infer_instance

/-- The unread remainder of the input. -/
def remChars (l : Lexer) : List Char := l.source.drop l.pos

/-- `strncpy`-style extraction of `len` characters starting at `start`. -/
def extract (s : List Char) (start len : Nat) : List Char :=
  (s.drop start).take len

/-- A C `while (current_char != '\0' && p(current_char)) advance;` loop.
The fuel at each call site is `length - pos`, enough for the loop to
reach its own exit condition from any well-formed state. -/
def scan_loop (p : Char → Bool) : Nat → Lexer → Lexer
  | 0, l => l
  | fuel + 1, l =>
    if l.current_char ≠ NUL ∧ p l.current_char = true then
      scan_loop p fuel (advance l)
    else l

/-- skip_whitespace from lexer.c. -/
def skip_whitespace (l : Lexer) : Lexer :=
  scan_loop cIsspace (l.length - l.pos) l

/-- skip_line_comment from lexer.c. -/
def skip_line_comment (l : Lexer) : Lexer :=
  let l1 := advance (advance l)
  let l2 := scan_loop (fun c => c ≠ '\n') (l1.length - l1.pos) l1
  if l2.current_char = '\n' then advance l2 else l2

/-- The `while` body of skip_block_comment. -/
def skip_block_loop : Nat → Lexer → Lexer
  | 0, l => l
  | fuel + 1, l =>
    if l.current_char ≠ NUL then
      if l.current_char = '*' ∧ peek l = '/' then advance (advance l)
      else skip_block_loop fuel (advance l)
    else l

/-- skip_block_comment from lexer.c. -/
def skip_block_comment (l : Lexer) : Lexer :=
  let l1 := advance (advance l)
  skip_block_loop (l1.length - l1.pos) l1

/-- read_identifier from lexer.c. -/
def read_identifier (l : Lexer) : Token × Lexer :=
  let start_line := l.line
  let start_column := l.column
  let start_pos := l.pos
  let l2 := scan_loop (fun c => cIsalnum c || c = '_') (l.length - l.pos) l
  let ident := extract l2.source start_pos (l2.pos - start_pos)
  (create_token (lookup_keyword ident) ident start_line start_column, l2)

/-- read_number from lexer.c.  The float branch produces a
TOKEN_DOUBLE_CONST whose (floating point) double_value is not modelled. -/
def read_number (l : Lexer) : Token × Lexer :=
  let start_line := l.line
  let start_column := l.column
  let start_pos := l.pos
  if l.current_char = '0' ∧ (peek l = 'x' ∨ peek l = 'X') then
    let l1 := advance (advance l)
    let l2 := scan_loop cIsxdigit (l1.length - l1.pos) l1
    let str := extract l2.source start_pos (l2.pos - start_pos)
    let t := create_token TOKEN_INT_CONST str start_line start_column
    ({ t with int_value := strtoll16 str }, l2)
  else
    let l1 := scan_loop cIsdigit (l.length - l.pos) l
    let fl :=
      if l1.current_char = '.' ∧ cIsdigit (peek l1) = true then
        let la := advance l1
        (true, scan_loop cIsdigit (la.length - la.pos) la)
      else (false, l1)
    let is_float := fl.1
    let l2 := fl.2
    let fe :=
      if l2.current_char = 'e' ∨ l2.current_char = 'E' then
        let la := advance l2
        let lb :=
          if la.current_char = '+' ∨ la.current_char = '-' then advance la
          else la
        (true, scan_loop cIsdigit (lb.length - lb.pos) lb)
      else (is_float, l2)
    let l3 := fe.2
    let str := extract l3.source start_pos (l3.pos - start_pos)
    if fe.1 then
      (create_token TOKEN_DOUBLE_CONST str start_line start_column, l3)
    else
      let t := create_token TOKEN_INT_CONST str start_line start_column
      ({ t with int_value := atoll str }, l3)

/-- The string-body `while` loop of read_string. -/
def read_string_loop : Nat → Lexer → Lexer
  | 0, l => l
  | fuel + 1, l =>
    if l.current_char ≠ NUL ∧ l.current_char ≠ '"' then
      if l.current_char = '\\' then
        let la := advance l
        read_string_loop fuel (if la.current_char ≠ NUL then advance la else la)
      else read_string_loop fuel (advance l)
    else l

/-- read_string from lexer.c. -/
def read_string (l : Lexer) : Token × Lexer :=
  let start_line := l.line
  let start_column := l.column
  let start_pos := l.pos
  let l1 := advance l
  let l2 := read_string_loop (l1.length - l1.pos) l1
  if l2.current_char ≠ '"' then
    (create_token TOKEN_ERROR "未结束的字符串".toList start_line start_column, l2)
  else
    let l3 := advance l2
    (create_token TOKEN_STRING_CONST (extract l3.source start_pos (l3.pos - start_pos))
      start_line start_column, l3)

/-- read_char from lexer.c. -/
def read_char (l : Lexer) : Token × Lexer :=
  let start_line := l.line
  let start_column := l.column
  let start_pos := l.pos
  let l1 := advance l
  let cv :=
    if l1.current_char = '\\' then
      let l2 := advance l1
      let c :=
        match l2.current_char with
        | 'n' => '\n'
        | 't' => '\t'
        | 'r' => '\r'
        | '\\' => '\\'
        | '\'' => '\''
        | '0' => NUL
        | other => other
      (c, advance l2)
    else if l1.current_char ≠ NUL ∧ l1.current_char ≠ '\'' then
      (l1.current_char, advance l1)
    else (NUL, l1)
  let char_value := cv.1
  let l2 := cv.2
  if l2.current_char ≠ '\'' then
    (create_token TOKEN_ERROR "未结束的字符常量".toList start_line start_column, l2)
  else
    let l3 := advance l2
    let t := create_token TOKEN_CHAR_CONST (extract l3.source start_pos (l3.pos - start_pos))
      start_line start_column
    ({ t with char_value := char_value }, l3)

/-- The diagnostic message `"非法字符: '%c'"` built by get_next_token. -/
def illegal_char_msg (c : Char) : List Char :=
  "非法字符: '".toList ++ [c] ++ ['\'']

/-- The `while (current_char != '\0')` loop of get_next_token.  Each
iteration that does not return a token consumes at least one character,
so fuel `length - pos + 1` always reaches the loop's own exit. -/
def gnt_loop : Nat → Lexer → Token × Lexer
  | 0, l => (create_token TOKEN_EOF [] l.line l.column, l)
  | fuel + 1, l =>
    if l.current_char ≠ NUL then
      let start_line := l.line
      let start_column := l.column
      if cIsspace l.current_char = true then
        gnt_loop fuel (skip_whitespace l)
      else if l.current_char = '/' ∧ peek l = '/' then
        gnt_loop fuel (skip_line_comment l)
      else if l.current_char = '/' ∧ peek l = '*' then
        gnt_loop fuel (skip_block_comment l)
      else if cIsalpha l.current_char = true ∨ l.current_char = '_' then
        read_identifier l
      else if cIsdigit l.current_char = true then
        read_number l
      else if l.current_char = '"' then
        read_string l
      else if l.current_char = '\'' then
        read_char l
      else
        let current := l.current_char
        let next := peek l
        if current = '=' ∧ next = '=' then
          (create_token TOKEN_EQ "==".toList start_line start_column, advance (advance l))
        else if current = '!' ∧ next = '=' then
          (create_token TOKEN_NE "!=".toList start_line start_column, advance (advance l))
        else if current = '<' ∧ next = '=' then
          (create_token TOKEN_LE "<=".toList start_line start_column, advance (advance l))
        else if current = '>' ∧ next = '=' then
          (create_token TOKEN_GE ">=".toList start_line start_column, advance (advance l))
        else if current = '&' ∧ next = '&' then
          (create_token TOKEN_AND "&&".toList start_line start_column, advance (advance l))
        else if current = '|' ∧ next = '|' then
          (create_token TOKEN_OR "||".toList start_line start_column, advance (advance l))
        else
          let l2 := advance l
          match current with
          | '+' => (create_token TOKEN_PLUS "+".toList start_line start_column, l2)
          | '-' => (create_token TOKEN_MINUS "-".toList start_line start_column, l2)
          | '*' => (create_token TOKEN_MULTIPLY "*".toList start_line start_column, l2)
          | '/' => (create_token TOKEN_DIVIDE "/".toList start_line start_column, l2)
          | '%' => (create_token TOKEN_MODULO "%".toList start_line start_column, l2)
          | '=' => (create_token TOKEN_ASSIGN "=".toList start_line start_column, l2)
          | '<' => (create_token TOKEN_LT "<".toList start_line start_column, l2)
          | '>' => (create_token TOKEN_GT ">".toList start_line start_column, l2)
          | '!' => (create_token TOKEN_NOT "!".toList start_line start_column, l2)
          | ';' => (create_token TOKEN_SEMICOLON ";".toList start_line start_column, l2)
          | ',' => (create_token TOKEN_COMMA ",".toList start_line start_column, l2)
          | '(' => (create_token TOKEN_LPAREN "(".toList start_line start_column, l2)
          | ')' => (create_token TOKEN_RPAREN ")".toList start_line start_column, l2)
          | '{' => (create_token TOKEN_LBRACE "\x7b".toList start_line start_column, l2)
          | '}' => (create_token TOKEN_RBRACE "\x7d".toList start_line start_column, l2)
          | '[' => (create_token TOKEN_LBRACKET "[".toList start_line start_column, l2)
          | ']' => (create_token TOKEN_RBRACKET "]".toList start_line start_column, l2)
          | _ => (create_token TOKEN_ERROR (illegal_char_msg current) start_line start_column, l2)
    else (create_token TOKEN_EOF [] l.line l.column, l)

/-- get_next_token from lexer.c, returning the token and the new state. -/
def get_next_token (l : Lexer) : Token × Lexer :=
  gnt_loop (l.length - l.pos + 1) l

/- ===== nfa_dfa.h / nfa_dfa.c ===== -/

def MAX_STATES : Nat := 100

def MAX_ALPHABET : Nat := 128

/-- The epsilon-transition marker from nfa_dfa.h. -/
def EPSILON : Int := -1

/-- NFATransition struct from nfa_dfa.h: symbols are stored as C ints
(character codes, or EPSILON). -/
structure NFATransition where
  from_state : Int
  to_state : Int
  symbol : Int
  deriving DecidableEq, Repr

/-- NFA struct from nfa_dfa.h.  `final_states` is the bool[MAX_STATES]
array; `num_transitions` is the length of `transitions`. -/
structure NFA where
  num_states : Int
  start_state : Int
  final_states : List Bool
  transitions : List NFATransition
  deriving DecidableEq, Repr

/-- StateSet struct from nfa_dfa.h: the `states` array restricted to its
`count` first entries, in insertion order. -/
structure StateSet where
  states : List Int
  deriving DecidableEq, Repr

/-- DFA struct from nfa_dfa.h: `transition` is the
int[MAX_STATES][MAX_ALPHABET] table (-1 = no transition), `final_states`
the bool[MAX_STATES] array, `alphabet` the first `alphabet_size` entries
of the char[MAX_ALPHABET] array (as character codes). -/
structure DFA where
  transition : List (List Int)
  num_states : Int
  start_state : Int
  final_states : List Bool
  alphabet_size : Int
  alphabet : List Int
  deriving DecidableEq, Repr

/-- state_set_contains from nfa_dfa.c. -/
def state_set_contains (s : StateSet) (q : Int) : Bool :=
  s.states.any (fun x => x = q)

/-- state_set_add from nfa_dfa.c: append if absent and below capacity. -/
def state_set_add (s : StateSet) (q : Int) : StateSet :=
  if state_set_contains s q = false ∧ s.states.length < MAX_STATES then
    { states := s.states ++ [q] }
  else s

/-- state_set_equal from nfa_dfa.c: same count and mutual containment
(one direction checked, as in the C code). -/
def state_set_equal (a b : StateSet) : Bool :=
  a.states.length = b.states.length && a.states.all (state_set_contains b)

/-- One step of the inner `for (i = 0; i < closure.count; i++)` loop of
epsilon_closure: add the epsilon-successors of the i-th member.  The C
loop re-reads `closure.count` each iteration, so members appended during
the pass are processed by the same pass. -/
def eps_from (nfa : NFA) (s : StateSet) (q : Int) : StateSet :=
  nfa.transitions.foldl
    (fun acc t =>
      if t.from_state = q ∧ t.symbol = EPSILON then state_set_add acc t.to_state
      else acc)
    s

/-- The inner loop of epsilon_closure, from index `i`.  Fuel
`count + MAX_STATES` bounds the length the set can reach, hence the
number of iterations. -/
def ec_inner (nfa : NFA) : Nat → Nat → StateSet → StateSet
  | 0, _, s => s
  | fuel + 1, i, s =>
    if i < s.states.length then
      ec_inner nfa fuel (i + 1) (eps_from nfa s (s.states.getD i 0))
    else s

/-- One full pass of epsilon_closure's inner loop. -/
def ec_pass (nfa : NFA) (s : StateSet) : StateSet :=
  ec_inner nfa (s.states.length + MAX_STATES) 0 s

/-- The outer `while (changed)` loop of epsilon_closure: repeat passes
while the count grew.  A growing pass needs room below MAX_STATES, so
MAX_STATES + 1 passes always reach the fixpoint. -/
def ec_outer (nfa : NFA) : Nat → StateSet → StateSet
  | 0, s => s
  | fuel + 1, s =>
    let s2 := ec_pass nfa s
    if s.states.length < s2.states.length then ec_outer nfa fuel s2 else s2

/-- epsilon_closure from nfa_dfa.c. -/
def epsilon_closure (nfa : NFA) (s : StateSet) : StateSet :=
  ec_outer nfa (MAX_STATES + 1) s

/-- move from nfa_dfa.c. -/
def move (nfa : NFA) (s : StateSet) (symbol : Int) : StateSet :=
  s.states.foldl
    (fun acc q =>
      nfa.transitions.foldl
        (fun acc t =>
          if t.from_state = q ∧ t.symbol = symbol then state_set_add acc t.to_state
          else acc)
        acc)
    { states := [] }

/-- The scan of find_state_set_index, carrying the running index. -/
def find_sset_go (target : StateSet) : List StateSet → Int → Int
  | [], _ => -1
  | s :: rest, i =>
    if state_set_equal s target = true then i else find_sset_go target rest (i + 1)

/-- find_state_set_index from nfa_dfa.c. -/
def find_state_set_index (sets : List StateSet) (target : StateSet) : Int :=
  find_sset_go target sets 0

/-- create_nfa_for_identifier from nfa_dfa.c: two states, transitions
0→1 on letters and underscore, 1→1 on letters, digits and underscore. -/
def create_nfa_for_identifier : NFA :=
  let t01 : List NFATransition :=
    ((List.range 26).map (fun i => ⟨0, 1, (97 + i : Int)⟩)) ++
    ((List.range 26).map (fun i => ⟨0, 1, (65 + i : Int)⟩)) ++
    [⟨0, 1, 95⟩]
  let t11 : List NFATransition :=
    ((List.range 26).map (fun i => ⟨1, 1, (97 + i : Int)⟩)) ++
    ((List.range 26).map (fun i => ⟨1, 1, (65 + i : Int)⟩)) ++
    ((List.range 10).map (fun i => ⟨1, 1, (48 + i : Int)⟩)) ++
    [⟨1, 1, 95⟩]
  { num_states := 2, start_state := 0,
    final_states := (List.replicate MAX_STATES false).set 1 true,
    transitions := t01 ++ t11 }

/-- The DFA alphabet built by nfa_to_dfa: a–z, A–Z, 0–9, `_`. -/
def dfaAlphabet : List Int :=
  ((List.range 26).map (fun i => (97 + i : Int))) ++
  ((List.range 26).map (fun i => (65 + i : Int))) ++
  ((List.range 10).map (fun i => (48 + i : Int))) ++
  [95]

/-- Write `transition[q][c] = v` in the two-dimensional table. -/
def setCell (g : List (List Int)) (q c : Nat) (v : Int) : List (List Int) :=
  g.set q ((g.getD q []).set c v)

/-- The per-symbol body of the subset construction: compute
move + epsilon-closure, register a new DFA state if the set is unseen,
and record the transition.  The accumulator is (registry of state sets,
worklist, transition table); the worklist is the C array-stack
(push/pop at the top). -/
def subsetBody (nfa : NFA) (cur : Nat) (cs : StateSet)
    (acc : List StateSet × List Nat × List (List Int)) (sym : Int) :
    List StateSet × List Nat × List (List Int) :=
  let reg := acc.1
  let stk := acc.2.1
  let g := acc.2.2
  let nextset := move nfa cs sym
  if 0 < nextset.states.length then
    let cl := epsilon_closure nfa nextset
    let idx := find_state_set_index reg cl
    if idx = -1 then
      let nidx := reg.length
      (reg ++ [cl], nidx :: stk, setCell g cur sym.toNat (nidx : Int))
    else (reg, stk, setCell g cur sym.toNat idx)
  else acc

/-- The `while (unmarked_count > 0)` worklist loop of nfa_to_dfa.  The C
registry holds at most MAX_STATES sets, so MAX_STATES + 1 pops always
reach the empty-worklist exit within the behaviour defined in C. -/
def subsetLoop (nfa : NFA) :
    Nat → List StateSet → List Nat → List (List Int) →
    List StateSet × List (List Int)
  | 0, reg, _, g => (reg, g)
  | fuel + 1, reg, stk, g =>
    match stk with
    | [] => (reg, g)
    | cur :: rest =>
      let cs := reg.getD cur { states := [] }
      let r := dfaAlphabet.foldl (subsetBody nfa cur cs) (reg, rest, g)
      subsetLoop nfa fuel r.1 r.2.1 r.2.2

/-- The final-state marking loop of nfa_to_dfa: a DFA state is accepting
iff its state set contains an accepting NFA state. -/
def markFinals (nfa : NFA) (reg : List StateSet) : List Bool :=
  (List.range reg.length).foldl
    (fun f i =>
      if (reg.getD i { states := [] }).states.any
          (fun q => nfa.final_states.getD q.toNat false) then
        f.set i true
      else f)
    (List.replicate MAX_STATES false)

/-- nfa_to_dfa from nfa_dfa.c (subset construction). -/
def nfa_to_dfa (nfa : NFA) : DFA :=
  let g0 := List.replicate MAX_STATES (List.replicate MAX_ALPHABET (-1 : Int))
  let initial := epsilon_closure nfa { states := [nfa.start_state] }
  let r := subsetLoop nfa (MAX_STATES + 1) [initial] [0] g0
  let reg := r.1
  let g := r.2
  { transition := g, num_states := (reg.length : Int), start_state := 0,
    final_states := markFinals nfa reg,
    alphabet_size := (dfaAlphabet.length : Int), alphabet := dfaAlphabet }

/-- Read `dfa->transition[i][(int)symbol]` as minimize_dfa does. -/
def cellOf (d : DFA) (i : Nat) (sym : Int) : Int :=
  (d.transition.getD i []).getD sym.toNat (-1)

/-- The states currently in partition `p` (ascending, as the C loop
collects them). -/
def collectBlock (part : List Int) (n : Nat) (p : Int) : List Nat :=
  (List.range n).filter (fun i => part.getD i 0 = p)

/-- The symbol scan of minimize_dfa deciding whether `s1` and `s2` are
distinguishable under the current partition. -/
def distinguishable (d : DFA) (part : List Int) (s1 s2 : Nat) : Bool :=
  d.alphabet.any (fun sym =>
    let n1 := cellOf d s1 sym
    let n2 := cellOf d s2 sym
    (decide (n1 = -1) != decide (n2 = -1)) ||
    (n1 != -1 && n2 != -1 &&
      part.getD n1.toNat 0 != part.getD n2.toNat 0))

/-- The per-block body of one refinement pass: members distinguishable
from the block's first element move to fresh partition ids.  The
accumulator is (new_partition, next_partition_id, changed). -/
def minimizePassBlock (d : DFA) (part : List Int) (n : Nat)
    (acc : List Int × Int × Bool) (p : Int) : List Int × Int × Bool :=
  let blk := collectBlock part n p
  match blk with
  | [] => acc
  | [_] => acc
  | s1 :: restMembers =>
    restMembers.foldl
      (fun acc2 s2 =>
        if distinguishable d part s1 s2 = true then
          (acc2.1.set s2 acc2.2.1, acc2.2.1 + 1, true)
        else acc2)
      acc

/-- One full refinement pass of minimize_dfa over all current partition
ids, starting from a copy of the current partition. -/
def minimizePass (d : DFA) (part : List Int) (numParts : Nat) :
    List Int × Int × Bool :=
  (List.range numParts).foldl
    (fun acc p => minimizePassBlock d part (d.num_states.toNat) acc (p : Int))
    (part, (numParts : Int), false)

/-- The `while (changed)` refinement loop of minimize_dfa.  Every
changing pass moves at least one state to a fresh singleton id and no
state moves twice, so MAX_STATES + 1 passes always reach the fixpoint. -/
def refineLoop (d : DFA) : Nat → List Int → Nat → List Int × Nat
  | 0, part, np => (part, np)
  | fuel + 1, part, np =>
    let r := minimizePass d part np
    if r.2.2 then refineLoop d fuel r.1 r.2.1.toNat else (r.1, r.2.1.toNat)

/-- minimize_dfa from nfa_dfa.c (simplified partition refinement).  The
initial partition maps accepting states to 1 and the rest to 0; the
partition array entries at indices ≥ num_states are uninitialized in C
and never read (modelled as 0). -/
def minimize_dfa (d : DFA) : DFA :=
  let n := d.num_states.toNat
  let part0 : List Int :=
    (List.range MAX_STATES).map
      (fun i => if i < n then (if d.final_states.getD i false then 1 else 0) else 0)
  let r := refineLoop d (MAX_STATES + 1) part0 2
  let part := r.1
  let nparts := r.2
  let g0 := List.replicate MAX_STATES (List.replicate MAX_ALPHABET (-1 : Int))
  let f0 := List.replicate MAX_STATES false
  let gf :=
    (List.range n).foldl
      (fun (gf : List (List Int) × List Bool) i =>
        let p := part.getD i 0
        let f2 :=
          if d.final_states.getD i false then gf.2.set p.toNat true else gf.2
        let g2 :=
          d.alphabet.foldl
            (fun g sym =>
              let next := cellOf d i sym
              if next ≠ -1 then
                setCell g p.toNat sym.toNat (part.getD next.toNat 0)
              else g)
            gf.1
        (g2, f2))
      (g0, f0)
  { transition := gf.1, num_states := (nparts : Int),
    start_state := part.getD d.start_state.toNat 0,
    final_states := gf.2, alphabet_size := d.alphabet_size,
    alphabet := d.alphabet }

/-- Modelled from the spec: the repository has no DFA-run function, so
acceptance follows spec §6/§8 ("run from its start state over its
transition table"; read accessors for transition lookup by
state+symbol).  A lookup outside the table (state out of range, symbol
code ≥ MAX_ALPHABET) is "no transition". -/
def dfa_lookup (d : DFA) (q : Int) (c : Nat) : Int :=
  if 0 ≤ q ∧ q < (MAX_STATES : Int) ∧ c < MAX_ALPHABET then
    (d.transition.getD q.toNat []).getD c (-1)
  else -1

/-- Modelled from the spec: one step of the DFA run; -1 is the dead
"no transition" sink. -/
def dfa_step (d : DFA) (q : Int) (c : Char) : Int :=
  if q = -1 then -1 else dfa_lookup d q c.toNat

/-- Modelled from the spec: run the DFA over a string. -/
def dfa_run (d : DFA) (q : Int) (s : List Char) : Int :=
  s.foldl (dfa_step d) q

/-- Modelled from the spec: accepting-state lookup. -/
def finals_lookup (d : DFA) (q : Int) : Bool :=
  decide (0 ≤ q) && d.final_states.getD q.toNat false

/-- Modelled from the spec: the DFA accepts a string iff the run from
the start state never falls off the table and ends in an accepting
state. -/
def dfa_accepts (d : DFA) (s : List Char) : Bool :=
  let q := dfa_run d d.start_state s
  decide (q ≠ -1) && finals_lookup d q

/-- The character class `[A-Za-z_]` on character codes. -/
def isLetterCode (c : Nat) : Bool :=
  decide ((97 ≤ c ∧ c ≤ 122) ∨ (65 ≤ c ∧ c ≤ 90) ∨ c = 95)

/-- The character class `[A-Za-z_0-9]` on character codes. -/
def isWordCode (c : Nat) : Bool :=
  isLetterCode c || decide (48 ≤ c ∧ c ≤ 57)

/-- The regular expression `[A-Za-z_]` from the spec. -/
def isLetterU (c : Char) : Bool := isLetterCode c.toNat

/-- The regular expression `[A-Za-z_0-9]` from the spec. -/
def isWordU (c : Char) : Bool := isWordCode c.toNat

/-- A string matching `[A-Za-z_][A-Za-z_0-9]*`. -/
def matchesIdent : List Char → Bool
  | [] => false
  | c :: cs => isLetterU c && cs.all isWordU


/- ===== basic facts about the scanner state ===== -/

theorem charAt_eq_headD (s : List Char) (i : Nat) :
    charAt s i = (s.drop i).headD NUL := by
  induction s generalizing i with
  | nil => cases i <;> rfl
  | cons a as ih =>
    cases i with
    | zero => rfl
    | succ j => exact ih j

theorem advance_source (l : Lexer) : (advance l).source = l.source := by
  unfold advance
  split <;> (try split) <;> rfl

theorem advance_length (l : Lexer) : (advance l).length = l.length := by
  unfold advance
  split <;> (try split) <;> rfl

theorem advance_pos (l : Lexer) :
    (advance l).pos = if l.pos < l.length then l.pos + 1 else l.pos := by
  by_cases h : l.pos < l.length
  · rw [if_pos h]; unfold advance; rw [if_pos h]
  · rw [if_neg h]; unfold advance; rw [if_neg h]

theorem advance_current (l : Lexer) :
    (advance l).current_char =
      if l.pos < l.length then
        (if l.pos + 1 < l.length then charAt l.source (l.pos + 1) else NUL)
      else l.current_char := by
  by_cases h : l.pos < l.length
  · rw [if_pos h]; unfold advance; rw [if_pos h]
  · rw [if_neg h]; unfold advance; rw [if_neg h]

theorem WF_advance (l : Lexer) (hw : WF l) : WF (advance l) := by
  obtain ⟨h1, h2, h3, h4⟩ := hw
  unfold WF
  refine ⟨?_, ?_, ?_, ?_⟩
  · rw [advance_length, advance_source]; exact h1
  · rw [advance_length, advance_pos]; split <;> omega
  · rw [advance_current, advance_pos, advance_source, advance_length]
    by_cases hlt : l.pos < l.length
    · simp only [if_pos hlt]
    · simp only [if_neg hlt]
      rw [h3, if_neg hlt]
  · rw [advance_source]; exact h4

theorem WF_create_lexer (s : List Char) (h : NUL ∉ s) : WF (create_lexer s) := by
  refine ⟨rfl, by simp [create_lexer], ?_, h⟩
  cases s with
  | nil => simp [create_lexer, charAt]
  | cons a as => simp [create_lexer, charAt, List.getD]

theorem current_of_WF (l : Lexer) (hw : WF l) :
    l.current_char = (remChars l).headD NUL := by
  obtain ⟨h1, h2, h3, h4⟩ := hw
  rw [h3, remChars]
  split
  · exact charAt_eq_headD l.source l.pos
  · have : l.source.length ≤ l.pos := by omega
    simp [List.drop_eq_nil_of_le this]

theorem head_ne_NUL (l : Lexer) (hw : WF l) (c : Char) (r : List Char)
    (hr : remChars l = c :: r) : c ≠ NUL := by
  obtain ⟨-, -, -, h4⟩ := hw
  intro hc
  apply h4
  have : c ∈ remChars l := by rw [hr]; exact List.mem_cons_self c r
  rw [hc] at this
  exact List.drop_subset _ _ this

theorem current_cons (l : Lexer) (hw : WF l) (c : Char) (r : List Char)
    (hr : remChars l = c :: r) : l.current_char = c := by
  rw [current_of_WF l hw, hr]; rfl

theorem current_nil (l : Lexer) (hw : WF l) (hr : remChars l = []) :
    l.current_char = NUL := by
  rw [current_of_WF l hw, hr]; rfl

theorem pos_lt_of_cons (l : Lexer) (hw : WF l) (c : Char) (r : List Char)
    (hr : remChars l = c :: r) : l.pos < l.length := by
  obtain ⟨h1, -, -, -⟩ := hw
  have := congrArg List.length hr
  rw [remChars, List.length_drop] at this
  simp at this
  omega

/-- The effect of `advance` on a well-formed state with a non-empty
remainder: the position moves one forward and the remainder loses its
head. -/
theorem advance_spec (l : Lexer) (hw : WF l) (c : Char) (r : List Char)
    (hr : remChars l = c :: r) :
    (advance l).source = l.source ∧ (advance l).length = l.length ∧
    (advance l).pos = l.pos + 1 ∧ remChars (advance l) = r := by
  have hlt : l.pos < l.length := pos_lt_of_cons l hw c r hr
  have hpos : (advance l).pos = l.pos + 1 := by
    rw [advance_pos, if_pos hlt]
  refine ⟨advance_source l, advance_length l, hpos, ?_⟩
  · rw [remChars, advance_source, hpos]
    have : l.source.drop (l.pos + 1) = (l.source.drop l.pos).drop 1 := by
      rw [List.drop_drop]
    rw [this]
    rw [remChars] at hr
    rw [hr]
    rfl

theorem fuel_of_WF (l : Lexer) (hw : WF l) :
    l.length - l.pos = (remChars l).length := by
  obtain ⟨h1, h2, -, -⟩ := hw
  rw [remChars, List.length_drop, h1]

/-- Characterization of `scan_loop`: from a well-formed state whose
remainder is `pre ++ rest` with every character of `pre` satisfying `p`
and the head of `rest` (if any) failing `p`, the loop consumes exactly
`pre`, provided the fuel covers `pre`. -/
theorem scan_loop_spec (p : Char → Bool) (pre : List Char) :
    ∀ (l : Lexer) (fuel : Nat) (rest : List Char), WF l →
    remChars l = pre ++ rest → pre.all p = true →
    (∀ c cs, rest = c :: cs → p c = false) →
    pre.length ≤ fuel →
    (scan_loop p fuel l).source = l.source ∧
    (scan_loop p fuel l).length = l.length ∧
    (scan_loop p fuel l).pos = l.pos + pre.length ∧
    remChars (scan_loop p fuel l) = rest ∧ WF (scan_loop p fuel l) := by
  induction pre with
  | nil =>
    intro l fuel rest hw hr hall hstop hfuel
    simp only [List.nil_append] at hr
    have hstopped : scan_loop p fuel l = l := by
      cases fuel with
      | zero => rfl
      | succ f =>
        show (if l.current_char ≠ NUL ∧ p l.current_char = true then
          scan_loop p f (advance l) else l) = l
        cases rest with
        | nil =>
          rw [if_neg]
          have := current_nil l hw hr
          intro hcon
          exact hcon.1 this
        | cons c cs =>
          rw [if_neg]
          have hc := current_cons l hw c cs hr
          intro hcon
          rw [hc] at hcon
          rw [hstop c cs rfl] at hcon
          exact Bool.false_ne_true hcon.2
    rw [hstopped]
    exact ⟨rfl, rfl, by simp, hr, hw⟩
  | cons a pre ih =>
    intro l fuel rest hw hr hall hstop hfuel
    simp only [List.all_cons, Bool.and_eq_true] at hall
    cases fuel with
    | zero => simp at hfuel
    | succ f =>
      simp only [List.cons_append] at hr
      have ha := current_cons l hw a (pre ++ rest) hr
      have hne := head_ne_NUL l hw a (pre ++ rest) hr
      have hstep : scan_loop p (f + 1) l = scan_loop p f (advance l) := by
        show (if l.current_char ≠ NUL ∧ p l.current_char = true then
          scan_loop p f (advance l) else l) = _
        rw [if_pos ⟨by rw [ha]; exact hne, by rw [ha]; exact hall.1⟩]
      obtain ⟨hs, hl, hp2, hr2⟩ := advance_spec l hw a (pre ++ rest) hr
      have hw2 := WF_advance l hw
      obtain ⟨ih1, ih2, ih3, ih4, ih5⟩ :=
        ih (advance l) f rest hw2 hr2 hall.2 hstop (by simp at hfuel; omega)
      rw [hstep]
      refine ⟨by rw [ih1, hs], by rw [ih2, hl], ?_, ih4, ih5⟩
      rw [ih3, hp2]
      simp only [List.length_cons]
      omega


/- ===== the invariant is preserved by every scanner operation ===== -/

theorem WF_scan_loop (p : Char → Bool) (fuel : Nat) :
    ∀ l : Lexer, WF l → WF (scan_loop p fuel l) := by
  induction fuel with
  | zero => intro l hw; exact hw
  | succ f ih =>
    intro l hw
    unfold scan_loop
    split
    · exact ih (advance l) (WF_advance l hw)
    · exact hw

theorem WF_skip_whitespace (l : Lexer) (hw : WF l) : WF (skip_whitespace l) :=
  WF_scan_loop _ _ _ hw

theorem WF_skip_line_comment (l : Lexer) (hw : WF l) :
    WF (skip_line_comment l) := by
  simp only [skip_line_comment]
  split
  · exact WF_advance _ (WF_scan_loop _ _ _ (WF_advance _ (WF_advance _ hw)))
  · exact WF_scan_loop _ _ _ (WF_advance _ (WF_advance _ hw))

theorem WF_skip_block_loop (fuel : Nat) :
    ∀ l : Lexer, WF l → WF (skip_block_loop fuel l) := by
  induction fuel with
  | zero => intro l hw; exact hw
  | succ f ih =>
    intro l hw
    unfold skip_block_loop
    split
    · split
      · exact WF_advance _ (WF_advance _ hw)
      · exact ih (advance l) (WF_advance l hw)
    · exact hw

theorem WF_skip_block_comment (l : Lexer) (hw : WF l) :
    WF (skip_block_comment l) :=
  WF_skip_block_loop _ _ (WF_advance _ (WF_advance _ hw))

theorem WF_read_identifier (l : Lexer) (hw : WF l) :
    WF (read_identifier l).2 :=
  WF_scan_loop _ _ _ hw

set_option maxHeartbeats 1000000 in
theorem WF_read_number (l : Lexer) (hw : WF l) : WF (read_number l).2 := by
  unfold read_number
  dsimp only
  split_ifs <;>
    (repeat first
      | apply WF_scan_loop
      | apply WF_advance
      | exact hw)

theorem WF_read_string_loop (fuel : Nat) :
    ∀ l : Lexer, WF l → WF (read_string_loop fuel l) := by
  induction fuel with
  | zero => intro l hw; exact hw
  | succ f ih =>
    intro l hw
    unfold read_string_loop
    split
    · split
      · apply ih
        split
        · exact WF_advance _ (WF_advance _ hw)
        · exact WF_advance _ hw
      · exact ih (advance l) (WF_advance l hw)
    · exact hw

theorem WF_read_string (l : Lexer) (hw : WF l) : WF (read_string l).2 := by
  simp only [read_string]
  split
  · exact WF_read_string_loop _ _ (WF_advance _ hw)
  · exact WF_advance _ (WF_read_string_loop _ _ (WF_advance _ hw))

theorem WF_read_char (l : Lexer) (hw : WF l) : WF (read_char l).2 := by
  simp only [read_char]
  split_ifs <;>
    repeat first
      | apply WF_advance
      | exact hw


theorem WF_gnt_loop (fuel : Nat) :
    ∀ l : Lexer, WF l → WF (gnt_loop fuel l).2 := by
  induction fuel with
  | zero => intro l hw; exact hw
  | succ f ih =>
    intro l hw
    unfold gnt_loop
    by_cases hc : l.current_char ≠ NUL
    · rw [if_pos hc]
      by_cases h1 : cIsspace l.current_char = true
      · rw [if_pos h1]; exact ih _ (WF_skip_whitespace l hw)
      rw [if_neg h1]
      by_cases h2 : l.current_char = '/' ∧ peek l = '/'
      · rw [if_pos h2]; exact ih _ (WF_skip_line_comment l hw)
      rw [if_neg h2]
      by_cases h3 : l.current_char = '/' ∧ peek l = '*'
      · rw [if_pos h3]; exact ih _ (WF_skip_block_comment l hw)
      rw [if_neg h3]
      by_cases h4 : cIsalpha l.current_char = true ∨ l.current_char = '_'
      · rw [if_pos h4]; exact WF_read_identifier l hw
      rw [if_neg h4]
      by_cases h5 : cIsdigit l.current_char = true
      · rw [if_pos h5]; exact WF_read_number l hw
      rw [if_neg h5]
      by_cases h6 : l.current_char = '"'
      · rw [if_pos h6]; exact WF_read_string l hw
      rw [if_neg h6]
      by_cases h7 : l.current_char = '\''
      · rw [if_pos h7]; exact WF_read_char l hw
      rw [if_neg h7]
      by_cases h8 : l.current_char = '=' ∧ peek l = '='
      · rw [if_pos h8]; exact WF_advance _ (WF_advance _ hw)
      rw [if_neg h8]
      by_cases h9 : l.current_char = '!' ∧ peek l = '='
      · rw [if_pos h9]; exact WF_advance _ (WF_advance _ hw)
      rw [if_neg h9]
      by_cases h10 : l.current_char = '<' ∧ peek l = '='
      · rw [if_pos h10]; exact WF_advance _ (WF_advance _ hw)
      rw [if_neg h10]
      by_cases h11 : l.current_char = '>' ∧ peek l = '='
      · rw [if_pos h11]; exact WF_advance _ (WF_advance _ hw)
      rw [if_neg h11]
      by_cases h12 : l.current_char = '&' ∧ peek l = '&'
      · rw [if_pos h12]; exact WF_advance _ (WF_advance _ hw)
      rw [if_neg h12]
      by_cases h13 : l.current_char = '|' ∧ peek l = '|'
      · rw [if_pos h13]; exact WF_advance _ (WF_advance _ hw)
      rw [if_neg h13]
      split <;> exact WF_advance _ hw
    · rw [if_neg hc]
      exact hw

theorem WF_get_next_token (l : Lexer) (hw : WF l) :
    WF (get_next_token l).2 :=
  WF_gnt_loop _ _ hw


/- ===== Claim C8 ===== -/

/-- C8: The scanner-state invariant (offset ≤ length; the lookahead char
equals source[offset] for offset < length and the end sentinel NUL at
offset = length) holds for a freshly created lexer and is preserved by
advance, hence by every get_next_token call. -/
theorem C8_scanner_invariant :
    (∀ s : List Char, NUL ∉ s → WF (create_lexer s)) ∧
    (∀ l : Lexer, WF l → WF (advance l)) ∧
    (∀ l : Lexer, WF l → WF (get_next_token l).2) :=
  ⟨WF_create_lexer, WF_advance, WF_get_next_token⟩

/-- Witness for C8 at the concrete source "a b". -/
theorem C8_scanner_invariant_witness :
    NUL ∉ "a b".toList ∧ WF (create_lexer "a b".toList) ∧
    WF (advance (create_lexer "a b".toList)) ∧
    WF (get_next_token (create_lexer "a b".toList)).2 := by
  have hn : NUL ∉ "a b".toList := by decide
  have h1 := C8_scanner_invariant.1 _ hn
  exact ⟨hn, h1, C8_scanner_invariant.2.1 _ h1, C8_scanner_invariant.2.2 _ h1⟩

/- ===== Claim C1 ===== -/

/-- C1: Once the scanner is at end-of-input, get_next_token returns an
EOF token and leaves the scanner state unchanged, so every further call
again returns EOF without moving past the input length. -/
theorem C1_eof_idempotent (l : Lexer) (hw : WF l) (hend : l.pos = l.length) :
    (get_next_token l).1.type = TOKEN_EOF ∧ (get_next_token l).2 = l := by
  have hc : l.current_char = NUL := by
    obtain ⟨-, -, h3, -⟩ := hw
    rw [h3, if_neg (by omega)]
  unfold get_next_token
  rw [hend, Nat.sub_self]
  unfold gnt_loop
  rw [if_neg (by rw [hc]; exact fun h => h rfl)]
  exact ⟨rfl, rfl⟩

/-- Witness for C1 at the empty source. -/
theorem C1_eof_idempotent_witness :
    WF (create_lexer ([] : List Char)) ∧
    (create_lexer ([] : List Char)).pos = (create_lexer ([] : List Char)).length ∧
    (get_next_token (create_lexer ([] : List Char))).1.type = TOKEN_EOF ∧
    (get_next_token (create_lexer ([] : List Char))).2 = create_lexer [] := by
  have hw : WF (create_lexer ([] : List Char)) := by decide
  have hp : (create_lexer ([] : List Char)).pos =
      (create_lexer ([] : List Char)).length := rfl
  obtain ⟨a, b⟩ := C1_eof_idempotent _ hw hp
  exact ⟨hw, hp, a, b⟩


/- ===== Claim C9 ===== -/

theorem remChars_create (s : List Char) : remChars (create_lexer s) = s := by
  simp [remChars, create_lexer]

theorem get_next_token_eq (l : Lexer) (hw : WF l) :
    get_next_token l = gnt_loop ((remChars l).length + 1) l := by
  unfold get_next_token
  rw [fuel_of_WF l hw]

/-- C9: On input whose lookahead is a single quote immediately followed
by another single quote (the empty character literal), get_next_token
returns a CHAR_CONST token with decoded value NUL and lexeme "''",
not an ERROR token. -/
theorem C9_empty_char_literal (rest : List Char) (hn : NUL ∉ rest) :
    (get_next_token (create_lexer ('\'' :: '\'' :: rest))).1.type = TOKEN_CHAR_CONST ∧
    (get_next_token (create_lexer ('\'' :: '\'' :: rest))).1.char_value = NUL ∧
    (get_next_token (create_lexer ('\'' :: '\'' :: rest))).1.lexeme = ['\'', '\''] := by
  set l0 := create_lexer ('\'' :: '\'' :: rest) with hl0
  have hnsrc : NUL ∉ ('\'' :: '\'' :: rest) := by
    simp only [List.mem_cons, not_or]
    exact ⟨by decide, by decide, hn⟩
  have hw : WF l0 := WF_create_lexer _ hnsrc
  have hrem : remChars l0 = '\'' :: '\'' :: rest := remChars_create _
  have hcur : l0.current_char = '\'' := current_cons _ hw _ _ hrem
  obtain ⟨hs1, hlen1, hp1, hr1⟩ := advance_spec l0 hw _ _ hrem
  have hw1 : WF (advance l0) := WF_advance _ hw
  have hcur1 : (advance l0).current_char = '\'' := current_cons _ hw1 _ _ hr1
  obtain ⟨hs2, hlen2, hp2, hr2⟩ := advance_spec (advance l0) hw1 _ _ hr1
  have hgnt : get_next_token l0 = read_char l0 := by
    rw [get_next_token_eq l0 hw, hrem]
    unfold gnt_loop
    rw [if_pos (by rw [hcur]; decide)]
    rw [if_neg (by rw [hcur]; decide)]
    rw [if_neg (by rw [hcur]; exact fun h => by exact absurd h.1 (by decide))]
    rw [if_neg (by rw [hcur]; exact fun h => by exact absurd h.1 (by decide))]
    rw [if_neg (by rw [hcur]; decide)]
    rw [if_neg (by rw [hcur]; decide)]
    rw [if_neg (by rw [hcur]; decide)]
    rw [if_pos (by rw [hcur])]
  rw [hgnt]
  unfold read_char
  dsimp only
  rw [hcur1]
  simp
  rw [if_pos hcur1]
  have hpos0 : l0.pos = 0 := by rw [hl0]; rfl
  have hsrc0 : l0.source = '\'' :: '\'' :: rest := by rw [hl0]; rfl
  refine ⟨rfl, rfl, ?_⟩
  show extract (advance (advance l0)).source l0.pos
    ((advance (advance l0)).pos - l0.pos) = ['\'', '\'']
  rw [hs2, hs1, hp2, hp1, hsrc0, hpos0]
  simp [extract]


/-- Witness for C9 at the concrete source "''". -/
theorem C9_empty_char_literal_witness :
    NUL ∉ ([] : List Char) ∧
    (get_next_token (create_lexer ['\'', '\''])).1.type = TOKEN_CHAR_CONST ∧
    (get_next_token (create_lexer ['\'', '\''])).1.char_value = NUL ∧
    (get_next_token (create_lexer ['\'', '\''])).1.lexeme = ['\'', '\''] := by
  have h := C9_empty_char_literal [] (by decide)
  exact ⟨by decide, h.1, h.2.1, h.2.2⟩


/- ===== Claim C6 ===== -/

theorem cIsdigit_toNat (c : Char) (h : cIsdigit c = true) :
    48 ≤ c.toNat ∧ c.toNat ≤ 57 := by
  simpa [cIsdigit] using h

theorem char_ne_of_toNat (c k : Char) (h : c.toNat ≠ k.toNat) : c ≠ k :=
  fun he => h (by rw [he])

theorem digit_not_space (c : Char) (h : cIsdigit c = true) :
    cIsspace c = false := by
  have := cIsdigit_toNat c h
  simp only [cIsspace, decide_eq_false_iff_not]
  omega

theorem digit_not_alpha (c : Char) (h : cIsdigit c = true) :
    cIsalpha c = false := by
  have := cIsdigit_toNat c h
  simp only [cIsalpha, decide_eq_false_iff_not]
  omega

theorem digit_ne (c k : Char) (h : cIsdigit c = true)
    (hk : ¬(48 ≤ k.toNat ∧ k.toNat ≤ 57)) : c ≠ k := by
  have h1 := cIsdigit_toNat c h
  exact char_ne_of_toNat c k (by omega)

theorem digit_ne_NUL (c : Char) (h : cIsdigit c = true) : c ≠ NUL :=
  digit_ne c NUL h (by decide)

theorem peek_eq (l : Lexer) (hw : WF l) :
    peek l = ((remChars l).drop 1).headD NUL := by
  obtain ⟨h1, -, -, -⟩ := hw
  unfold peek
  rw [remChars, List.drop_drop]
  split
  · rw [charAt_eq_headD]
  · have hge : l.source.length ≤ l.pos + 1 := by omega
    rw [List.drop_eq_nil_of_le hge]
    rfl


/- ===== Claim C6 (continued): evaluation of get_next_token ===== -/

theorem gnt_digit (l : Lexer) (hw : WF l) (h : cIsdigit l.current_char = true) :
    get_next_token l = read_number l := by
  rw [get_next_token_eq l hw]
  unfold gnt_loop
  rw [if_pos (digit_ne_NUL _ h)]
  rw [if_neg (show ¬cIsspace l.current_char = true by
    rw [digit_not_space _ h]; simp)]
  rw [if_neg (show ¬(l.current_char = '/' ∧ peek l = '/') from
    fun hx => absurd hx.1 (digit_ne _ '/' h (by decide)))]
  rw [if_neg (show ¬(l.current_char = '/' ∧ peek l = '*') from
    fun hx => absurd hx.1 (digit_ne _ '/' h (by decide)))]
  rw [if_neg (show ¬(cIsalpha l.current_char = true ∨ l.current_char = '_') from
    fun hx => hx.elim
      (fun ha => by rw [digit_not_alpha _ h] at ha; exact Bool.false_ne_true ha)
      (fun hu => digit_ne _ '_' h (by decide) hu))]
  rw [if_pos h]

theorem gnt_dot_error (l : Lexer) (hw : WF l) (hc : l.current_char = '.') :
    (get_next_token l).1.type = TOKEN_ERROR := by
  rw [get_next_token_eq l hw]
  unfold gnt_loop
  rw [hc]
  simp [create_token, illegal_char_msg]
  rw [if_neg (show ¬(('.' : Char) = NUL) by decide)]
  rw [if_neg (show ¬(cIsspace '.' = true) by decide)]
  rw [if_neg (show ¬(cIsalpha '.' = true) by decide)]
  rw [if_neg (show ¬(cIsdigit '.' = true) by decide)]


/-- C6: A decimal number consumes a trailing dot only when a digit
follows it: on digits followed by a dot not followed by a digit,
get_next_token returns an INT_CONST token for the digits alone, and the
next call fails on the dot with an ERROR token. -/
theorem C6_trailing_dot (ds rest : List Char) (hne : ds ≠ [])
    (hds : ds.all cIsdigit = true)
    (hstop : cIsdigit (rest.headD NUL) = false)
    (hn : NUL ∉ rest) :
    (get_next_token (create_lexer (ds ++ '.' :: rest))).1.type = TOKEN_INT_CONST ∧
    (get_next_token (create_lexer (ds ++ '.' :: rest))).1.lexeme = ds ∧
    (get_next_token ((get_next_token (create_lexer (ds ++ '.' :: rest))).2)).1.type
      = TOKEN_ERROR := by
  obtain ⟨d, ds', rfl⟩ := List.exists_cons_of_ne_nil hne
  have hdigs : ∀ c ∈ d :: ds', cIsdigit c = true := by
    intro c hcmem
    exact List.all_eq_true.mp hds c hcmem
  have hnsrc : NUL ∉ (d :: ds') ++ '.' :: rest := by
    intro hmem
    rcases List.mem_append.mp hmem with hm | hm
    · exact absurd (hdigs NUL hm) (by decide)
    · rcases List.mem_cons.mp hm with hm2 | hm2
      · exact absurd hm2 (by decide)
      · exact hn hm2
  set l0 := create_lexer ((d :: ds') ++ '.' :: rest) with hl0
  have hw : WF l0 := WF_create_lexer _ hnsrc
  have hrem : remChars l0 = (d :: ds') ++ '.' :: rest := remChars_create _
  have hd : cIsdigit d = true := hdigs d (List.mem_cons_self d ds')
  have hcur : l0.current_char = d :=
    current_cons _ hw d (ds' ++ '.' :: rest) (by rw [hrem]; rfl)
  have hfuel : (d :: ds').length ≤ l0.length - l0.pos := by
    rw [fuel_of_WF l0 hw, hrem]
    simp
  obtain ⟨hsc_src, hsc_len, hsc_pos, hsc_rem, hsc_wf⟩ :=
    scan_loop_spec cIsdigit (d :: ds') l0 (l0.length - l0.pos) ('.' :: rest)
      hw hrem hds
      (by intro c cs hcc; cases hcc; decide) hfuel
  have hcurL1 : (scan_loop cIsdigit (l0.length - l0.pos) l0).current_char = '.' :=
    current_cons _ hsc_wf '.' rest hsc_rem
  have hpeekL1 : peek (scan_loop cIsdigit (l0.length - l0.pos) l0) =
      rest.headD NUL := by
    rw [peek_eq _ hsc_wf, hsc_rem]
    rfl
  have hpeek0 : ¬(peek l0 = 'x' ∨ peek l0 = 'X') := by
    rw [peek_eq _ hw, hrem]
    cases ds' with
    | nil =>
      have hh : (List.drop 1 ([d] ++ '.' :: rest)).headD NUL = '.' := rfl
      rw [hh]
      decide
    | cons e es =>
      have he : cIsdigit e = true := hdigs e (by simp)
      show ¬((e :: (es ++ '.' :: rest)).headD NUL = 'x' ∨
        (e :: (es ++ '.' :: rest)).headD NUL = 'X')
      intro hx
      rcases hx with hx | hx
      · exact digit_ne e 'x' he (by decide) hx
      · exact digit_ne e 'X' he (by decide) hx
  have hstr : extract (scan_loop cIsdigit (l0.length - l0.pos) l0).source l0.pos
      ((scan_loop cIsdigit (l0.length - l0.pos) l0).pos - l0.pos) = d :: ds' := by
    rw [hsc_src, hsc_pos]
    have hp0 : l0.pos = 0 := by rw [hl0]; rfl
    rw [hp0]
    have hs0 : l0.source = (d :: ds') ++ '.' :: rest := by rw [hl0]; rfl
    rw [hs0]
    simp only [Nat.zero_add, Nat.sub_zero]
    show extract ((d :: ds') ++ '.' :: rest) 0 ((d :: ds').length) = d :: ds'
    unfold extract
    rw [List.drop_zero, List.take_left]
  rw [gnt_digit l0 hw (by rw [hcur]; exact hd)]
  unfold read_number
  dsimp only
  rw [if_neg (show ¬(l0.current_char = '0' ∧ (peek l0 = 'x' ∨ peek l0 = 'X')) from
    fun hx => hpeek0 hx.2)]
  rw [if_neg (show
    ¬((scan_loop cIsdigit (l0.length - l0.pos) l0).current_char = '.' ∧
      cIsdigit (peek (scan_loop cIsdigit (l0.length - l0.pos) l0)) = true) from
    fun hx => by
      have h2 := hx.2
      rw [hpeekL1, hstop] at h2
      exact Bool.false_ne_true h2)]
  dsimp only
  rw [if_neg (show
    ¬((scan_loop cIsdigit (l0.length - l0.pos) l0).current_char = 'e' ∨
      (scan_loop cIsdigit (l0.length - l0.pos) l0).current_char = 'E') from by
    rw [hcurL1]
    decide)]
  dsimp only
  rw [hstr]
  refine ⟨rfl, rfl, ?_⟩
  exact gnt_dot_error _ hsc_wf hcurL1


/-- Witness for C6 at the concrete source "5.". -/
theorem C6_trailing_dot_witness :
    (['5'] ≠ ([] : List Char)) ∧ ['5'].all cIsdigit = true ∧
    cIsdigit (([] : List Char).headD NUL) = false ∧ NUL ∉ ([] : List Char) ∧
    (get_next_token (create_lexer (['5'] ++ '.' :: []))).1.type = TOKEN_INT_CONST ∧
    (get_next_token (create_lexer (['5'] ++ '.' :: []))).1.lexeme = ['5'] ∧
    (get_next_token ((get_next_token (create_lexer (['5'] ++ '.' :: []))).2)).1.type
      = TOKEN_ERROR := by
  have h := C6_trailing_dot ['5'] [] (by decide) (by decide) (by decide) (by decide)
  exact ⟨by decide, by decide, by decide, by decide, h.1, h.2.1, h.2.2⟩


/- ===== Claim C7 ===== -/

theorem cIsxdigit_toNat (c : Char) (h : cIsxdigit c = true) :
    (48 ≤ c.toNat ∧ c.toNat ≤ 57) ∨ (65 ≤ c.toNat ∧ c.toNat ≤ 70) ∨
    (97 ≤ c.toNat ∧ c.toNat ≤ 102) := by
  simp only [cIsxdigit, cIsdigit, Bool.or_eq_true, decide_eq_true_eq] at h
  tauto

theorem xdigit_ne (c k : Char) (h : cIsxdigit c = true)
    (hk : ¬((48 ≤ k.toNat ∧ k.toNat ≤ 57) ∨ (65 ≤ k.toNat ∧ k.toNat ≤ 70) ∨
      (97 ≤ k.toNat ∧ k.toNat ≤ 102))) : c ≠ k := by
  have h1 := cIsxdigit_toNat c h
  exact char_ne_of_toNat c k (by omega)

theorem takeWhile_all (p : Char → Bool) (l : List Char) (h : l.all p = true) :
    l.takeWhile p = l := by
  induction l with
  | nil => rfl
  | cons a t ih =>
    simp only [List.all_cons, Bool.and_eq_true] at h
    simp [List.takeWhile, h.1, ih h.2]

theorem strtoll16_eval (x : Char) (ds : List Char) (hx : x = 'x' ∨ x = 'X')
    (hds : ds.all cIsxdigit = true) :
    strtoll16 ('0' :: x :: ds) =
      if hexVal ds ≤ LLONG_MAX then hexVal ds else LLONG_MAX := by
  unfold strtoll16
  dsimp only
  rw [if_pos (show ('0' : Char) = '0' ∧ (x = 'x' ∨ x = 'X') from ⟨rfl, hx⟩)]
  rw [takeWhile_all cIsxdigit ds hds]

/-- C7 (amended): A number starting 0x/0X is lexed as a hexadecimal
INT_CONST only (never a float; no dot or exponent is consumed), and its
decoded value is the base-16 value of its digits whenever that value is
representable in a signed 64-bit integer; on overflow strtoll clamps to
LLONG_MAX (see the counterexample). -/
theorem C7_hex_integer (x : Char) (ds rest : List Char) (hx : x = 'x' ∨ x = 'X')
    (hds : ds.all cIsxdigit = true)
    (hstop : cIsxdigit (rest.headD NUL) = false)
    (hn : NUL ∉ rest) :
    (get_next_token (create_lexer ('0' :: x :: (ds ++ rest)))).1.type
      = TOKEN_INT_CONST ∧
    (get_next_token (create_lexer ('0' :: x :: (ds ++ rest)))).1.lexeme
      = '0' :: x :: ds ∧
    (get_next_token (create_lexer ('0' :: x :: (ds ++ rest)))).1.int_value
      = (if hexVal ds ≤ LLONG_MAX then hexVal ds else LLONG_MAX) := by
  have hxne : x ≠ NUL := by rcases hx with rfl | rfl <;> decide
  have hxdigs : ∀ c ∈ ds, cIsxdigit c = true := fun c hc =>
    List.all_eq_true.mp hds c hc
  have hnsrc : NUL ∉ '0' :: x :: (ds ++ rest) := by
    intro hmem
    rcases List.mem_cons.mp hmem with hm | hm
    · exact absurd hm (by decide)
    rcases List.mem_cons.mp hm with hm2 | hm2
    · exact hxne hm2.symm
    rcases List.mem_append.mp hm2 with hm3 | hm3
    · exact absurd (hxdigs NUL hm3) (by decide)
    · exact hn hm3
  set l0 := create_lexer ('0' :: x :: (ds ++ rest)) with hl0
  have hw : WF l0 := WF_create_lexer _ hnsrc
  have hrem : remChars l0 = '0' :: x :: (ds ++ rest) := remChars_create _
  have hcur : l0.current_char = '0' := current_cons _ hw _ _ hrem
  have hpeek : peek l0 = x := by
    rw [peek_eq _ hw, hrem]
    rfl
  obtain ⟨hs1, hlen1, hp1, hr1⟩ := advance_spec l0 hw _ _ hrem
  have hw1 : WF (advance l0) := WF_advance _ hw
  obtain ⟨hs2, hlen2, hp2, hr2⟩ := advance_spec (advance l0) hw1 _ _ hr1
  have hw2 : WF (advance (advance l0)) := WF_advance _ hw1
  have hfuel : ds.length ≤
      (advance (advance l0)).length - (advance (advance l0)).pos := by
    rw [fuel_of_WF _ hw2, hr2]
    simp
  obtain ⟨hsc_src, hsc_len, hsc_pos, hsc_rem, hsc_wf⟩ :=
    scan_loop_spec cIsxdigit ds (advance (advance l0))
      ((advance (advance l0)).length - (advance (advance l0)).pos) rest
      hw2 hr2 hds
      (by
        intro c cs hcc
        rw [hcc] at hstop
        exact hstop) hfuel
  have hstr : extract
      (scan_loop cIsxdigit
        ((advance (advance l0)).length - (advance (advance l0)).pos)
        (advance (advance l0))).source l0.pos
      ((scan_loop cIsxdigit
        ((advance (advance l0)).length - (advance (advance l0)).pos)
        (advance (advance l0))).pos - l0.pos) = '0' :: x :: ds := by
    rw [hsc_src, hsc_pos, hp2, hp1, hs2, hs1]
    have hp0 : l0.pos = 0 := by rw [hl0]; rfl
    have hs0 : l0.source = '0' :: x :: (ds ++ rest) := by rw [hl0]; rfl
    rw [hp0, hs0]
    simp only [Nat.zero_add, Nat.sub_zero]
    show extract ('0' :: x :: (ds ++ rest)) 0 (1 + 1 + ds.length) = '0' :: x :: ds
    unfold extract
    rw [List.drop_zero]
    have h2 : 1 + 1 + ds.length = ds.length + 1 + 1 := by omega
    rw [h2]
    rw [List.take_succ_cons, List.take_succ_cons, List.take_left]
  rw [gnt_digit l0 hw (by rw [hcur]; decide)]
  unfold read_number
  dsimp only
  rw [if_pos (show l0.current_char = '0' ∧ (peek l0 = 'x' ∨ peek l0 = 'X') from
    ⟨hcur, by rw [hpeek]; exact hx⟩)]
  rw [hstr]
  refine ⟨rfl, rfl, ?_⟩
  show strtoll16 ('0' :: x :: ds) = _
  exact strtoll16_eval x ds hx hds


/-- Witness for C7 at the concrete source "0x1A2B" (decoded value 6699). -/
theorem C7_hex_integer_witness :
    ('x' = 'x' ∨ 'x' = 'X') ∧
    ("1A2B".toList.all cIsxdigit = true) ∧
    (cIsxdigit (([] : List Char).headD NUL) = false) ∧
    (NUL ∉ ([] : List Char)) ∧
    (get_next_token (create_lexer ('0' :: 'x' :: ("1A2B".toList ++ [])))).1.type
      = TOKEN_INT_CONST ∧
    (get_next_token (create_lexer ('0' :: 'x' :: ("1A2B".toList ++ [])))).1.lexeme
      = '0' :: 'x' :: "1A2B".toList ∧
    (get_next_token (create_lexer ('0' :: 'x' :: ("1A2B".toList ++ [])))).1.int_value
      = 6699 := by
  have h := C7_hex_integer 'x' "1A2B".toList [] (Or.inl rfl) (by decide)
    (by decide) (by decide)
  refine ⟨Or.inl rfl, by decide, by decide, by decide, h.1, h.2.1, ?_⟩
  rw [h.2.2]
  decide

/-- C7 counterexample: for "0x8000000000000000" the base-16 value of
the digits is 2^63, which strtoll clamps to LLONG_MAX = 2^63 - 1, so the
decoded value does NOT equal the base-16 value of the digits. -/
theorem C7_overflow_counterexample :
    (get_next_token (create_lexer "0x8000000000000000".toList)).1.type
      = TOKEN_INT_CONST ∧
    (get_next_token (create_lexer "0x8000000000000000".toList)).1.int_value
      = LLONG_MAX ∧
    (get_next_token (create_lexer "0x8000000000000000".toList)).1.int_value
      ≠ hexVal "8000000000000000".toList := by
  refine ⟨by decide, by decide, by decide⟩


/- ===== Claim C5 ===== -/

/-- Presence of the comment terminator `*/` as a substring. -/
def hasStarSlash : List Char → Bool
  | [] => false
  | [_] => false
  | c1 :: c2 :: rest => (c1 = '*' && c2 = '/') || hasStarSlash (c2 :: rest)

theorem space_ne_NUL (c : Char) (h : cIsspace c = true) : c ≠ NUL := by
  simp only [cIsspace, decide_eq_true_eq] at h
  exact char_ne_of_toNat c NUL (by simp [NUL]; omega)

/-- With no `*/` in the remaining input, the block-comment loop consumes
everything up to end-of-input. -/
theorem skip_block_loop_end (fuel : Nat) :
    ∀ l : Lexer, WF l → hasStarSlash (remChars l) = false →
    (remChars l).length ≤ fuel →
    remChars (skip_block_loop fuel l) = [] ∧ WF (skip_block_loop fuel l) := by
  induction fuel with
  | zero =>
    intro l hw hstar hlen
    have : remChars l = [] := List.eq_nil_of_length_eq_zero (by omega)
    exact ⟨this, hw⟩
  | succ f ih =>
    intro l hw hstar hlen
    unfold skip_block_loop
    cases hrem : remChars l with
    | nil =>
      rw [if_neg]
      · exact ⟨hrem, hw⟩
      · have := current_nil l hw hrem
        intro hcon
        exact hcon this
    | cons c r =>
      have hc := current_cons l hw c r hrem
      have hne := head_ne_NUL l hw c r hrem
      rw [if_pos (by rw [hc]; exact hne)]
      have hpeek : peek l = r.headD NUL := by
        rw [peek_eq _ hw, hrem]
        rfl
      have hnotclose : ¬(l.current_char = '*' ∧ peek l = '/') := by
        intro hcl
        rw [hc] at hcl
        rw [hpeek] at hcl
        cases r with
        | nil => exact absurd hcl.2 (by decide)
        | cons c2 r2 =>
          rw [hrem] at hstar
          simp only [hasStarSlash, Bool.or_eq_false_iff] at hstar
          have h1 := hstar.1
          rw [hcl.1] at h1
          have h2 : (c2 :: r2).headD NUL = c2 := rfl
          rw [h2] at hcl
          rw [hcl.2] at h1
          simp at h1
      rw [if_neg hnotclose]
      obtain ⟨-, -, -, hr2⟩ := advance_spec l hw c r hrem
      have hstar2 : hasStarSlash r = false := by
        rw [hrem] at hstar
        cases r with
        | nil => rfl
        | cons c2 r2 =>
          simp only [hasStarSlash, Bool.or_eq_false_iff] at hstar
          exact hstar.2
      have hlen2 : (remChars (advance l)).length ≤ f := by
        rw [hr2]
        rw [hrem] at hlen
        simp at hlen ⊢
        omega
      exact ih (advance l) (WF_advance l hw) (by rw [hr2]; exact hstar2) hlen2


/-- From a state whose remainder is an unterminated block comment, the
get_next_token loop skips it and returns EOF. -/
theorem gnt_comment_eof (l : Lexer) (hw : WF l) (s : List Char) (f : Nat)
    (hrem : remChars l = '/' :: '*' :: s) (hnostar : hasStarSlash s = false)
    (hf : 1 ≤ f) :
    (gnt_loop (f + 1) l).1.type = TOKEN_EOF := by
  have hcur : l.current_char = '/' := current_cons _ hw _ _ hrem
  have hpeek : peek l = '*' := by
    rw [peek_eq _ hw, hrem]
    rfl
  unfold gnt_loop
  rw [if_pos (by rw [hcur]; decide)]
  rw [if_neg (by rw [hcur]; decide)]
  rw [if_neg (show ¬(l.current_char = '/' ∧ peek l = '/') from
    fun hx => by rw [hpeek] at hx; exact absurd hx.2 (by decide))]
  rw [if_pos (show l.current_char = '/' ∧ peek l = '*' from ⟨hcur, hpeek⟩)]
  -- the comment is skipped to end-of-input
  obtain ⟨hs1, hlen1, hp1, hr1⟩ := advance_spec l hw _ _ hrem
  have hw1 : WF (advance l) := WF_advance _ hw
  obtain ⟨hs2, hlen2, hp2, hr2⟩ := advance_spec (advance l) hw1 _ _ hr1
  have hw2 : WF (advance (advance l)) := WF_advance _ hw1
  have hend := skip_block_loop_end
    ((advance (advance l)).length - (advance (advance l)).pos)
    (advance (advance l)) hw2 (by rw [hr2]; exact hnostar)
    (by rw [fuel_of_WF _ hw2])
  obtain ⟨hremE, hwE⟩ := hend
  have hcurE := current_nil _ hwE hremE
  obtain ⟨g, rfl⟩ : ∃ g, f = g + 1 := ⟨f - 1, by omega⟩
  show (gnt_loop (g + 1) (skip_block_comment l)).1.type = TOKEN_EOF
  unfold gnt_loop
  rw [if_neg (show ¬(skip_block_comment l).current_char ≠ NUL from
    fun hx => hx (by unfold skip_block_comment; dsimp only; exact hcurE))]
  rfl

/-- C5: A source consisting of optional whitespace, then a block-comment
opener with no closing sequence before end-of-input, is consumed
silently: get_next_token returns EOF, not ERROR. -/
theorem C5_unterminated_block_comment (ws s : List Char)
    (hws : ws.all cIsspace = true)
    (hnostar : hasStarSlash s = false)
    (hn : NUL ∉ s) :
    (get_next_token (create_lexer (ws ++ '/' :: '*' :: s))).1.type = TOKEN_EOF := by
  have hwsp : ∀ c ∈ ws, cIsspace c = true := fun c hc => List.all_eq_true.mp hws c hc
  have hnsrc : NUL ∉ ws ++ '/' :: '*' :: s := by
    intro hmem
    rcases List.mem_append.mp hmem with hm | hm
    · exact space_ne_NUL NUL (hwsp NUL hm) rfl
    rcases List.mem_cons.mp hm with hm2 | hm2
    · exact absurd hm2 (by decide)
    rcases List.mem_cons.mp hm2 with hm3 | hm3
    · exact absurd hm3 (by decide)
    · exact hn hm3
  set l0 := create_lexer (ws ++ '/' :: '*' :: s) with hl0
  have hw : WF l0 := WF_create_lexer _ hnsrc
  have hrem : remChars l0 = ws ++ '/' :: '*' :: s := remChars_create _
  rw [get_next_token_eq _ hw]
  cases ws with
  | nil =>
    have hrem0 : remChars l0 = '/' :: '*' :: s := by rw [hrem]; rfl
    have hfe : (remChars l0).length + 1 = (s.length + 2) + 1 := by
      rw [hrem0]
      simp
    rw [hfe]
    exact gnt_comment_eof l0 hw s (s.length + 2) hrem0 hnostar (by omega)
  | cons w ws' =>
    have hfe : (remChars l0).length + 1 = ((ws'.length + s.length + 2) + 1) + 1 := by
      rw [hrem]
      simp
      omega
    rw [hfe]
    have hw0 : cIsspace w = true := hwsp w (List.mem_cons_self w ws')
    have hcur : l0.current_char = w :=
      current_cons _ hw _ _ (by rw [hrem]; rfl)
    unfold gnt_loop
    rw [if_pos (by rw [hcur]; exact space_ne_NUL w hw0)]
    rw [if_pos (by rw [hcur]; exact hw0)]
    obtain ⟨hsc_src, hsc_len, hsc_pos, hsc_rem, hsc_wf⟩ :=
      scan_loop_spec cIsspace (w :: ws') l0 (l0.length - l0.pos) ('/' :: '*' :: s)
        hw (by rw [hrem]) hws
        (by intro c cs hcc; cases hcc; decide)
        (by rw [fuel_of_WF _ hw, hrem]; simp)
    exact gnt_comment_eof _ hsc_wf s (ws'.length + s.length + 2) hsc_rem hnostar
      (by omega)

/-- Witness for C5 at the concrete source "  /* xx". -/
theorem C5_unterminated_block_comment_witness :
    ([' ', ' '].all cIsspace = true) ∧
    hasStarSlash " xx".toList = false ∧ NUL ∉ " xx".toList ∧
    (get_next_token (create_lexer ([' ', ' '] ++ '/' :: '*' :: " xx".toList))).1.type
      = TOKEN_EOF := by
  have h := C5_unterminated_block_comment [' ', ' '] " xx".toList
    (by decide) (by decide) (by decide)
  exact ⟨by decide, by decide, by decide, h⟩


/- ===== Claim C10 ===== -/

/-- `b` extends `a`: the member list of `b` is that of `a` plus appended
elements (state-set operations only ever append). -/
def SetExtends (a b : StateSet) : Prop := ∃ u, b.states = a.states ++ u

theorem SetExtends.refl (a : StateSet) : SetExtends a a := ⟨[], by simp⟩

theorem SetExtends.trans {a b c : StateSet} (h1 : SetExtends a b)
    (h2 : SetExtends b c) : SetExtends a c := by
  obtain ⟨u, hu⟩ := h1
  obtain ⟨v, hv⟩ := h2
  exact ⟨u ++ v, by rw [hv, hu, List.append_assoc]⟩

theorem state_set_add_extends (s : StateSet) (q : Int) :
    SetExtends s (state_set_add s q) := by
  unfold state_set_add
  split
  · exact ⟨[q], rfl⟩
  · exact SetExtends.refl s

theorem foldl_extends {α : Type} (g : StateSet → α → StateSet)
    (hg : ∀ s a, SetExtends s (g s a)) (l : List α) :
    ∀ s, SetExtends s (l.foldl g s) := by
  induction l with
  | nil => intro s; exact SetExtends.refl s
  | cons a t ih =>
    intro s
    exact SetExtends.trans (hg s a) (ih (g s a))

theorem eps_from_extends (nfa : NFA) (s : StateSet) (q : Int) :
    SetExtends s (eps_from nfa s q) := by
  unfold eps_from
  apply foldl_extends
  intro s2 t
  split
  · exact state_set_add_extends s2 t.to_state
  · exact SetExtends.refl s2

theorem ec_inner_extends (nfa : NFA) (fuel : Nat) :
    ∀ i s, SetExtends s (ec_inner nfa fuel i s) := by
  induction fuel with
  | zero => intro i s; exact SetExtends.refl s
  | succ f ih =>
    intro i s
    unfold ec_inner
    split
    · exact SetExtends.trans (eps_from_extends nfa s _) (ih (i + 1) _)
    · exact SetExtends.refl s

theorem ec_pass_extends (nfa : NFA) (s : StateSet) :
    SetExtends s (ec_pass nfa s) :=
  ec_inner_extends nfa _ 0 s

theorem ec_outer_extends (nfa : NFA) (fuel : Nat) :
    ∀ s, SetExtends s (ec_outer nfa fuel s) := by
  induction fuel with
  | zero => intro s; exact SetExtends.refl s
  | succ f ih =>
    intro s
    unfold ec_outer
    dsimp only
    split
    · exact SetExtends.trans (ec_pass_extends nfa s) (ih _)
    · exact ec_pass_extends nfa s

theorem epsilon_closure_extends (nfa : NFA) (s : StateSet) :
    SetExtends s (epsilon_closure nfa s) :=
  ec_outer_extends nfa _ s

theorem state_set_add_cap (s : StateSet) (q : Int)
    (h : MAX_STATES ≤ s.states.length) : state_set_add s q = s := by
  unfold state_set_add
  rw [if_neg]
  intro hx
  omega

theorem eps_from_cap (nfa : NFA) (s : StateSet) (q : Int)
    (h : MAX_STATES ≤ s.states.length) : eps_from nfa s q = s := by
  unfold eps_from
  induction nfa.transitions with
  | nil => rfl
  | cons t ts ih =>
    simp only [List.foldl_cons]
    split
    · rw [state_set_add_cap s t.to_state h]
      exact ih
    · exact ih

theorem ec_inner_cap (nfa : NFA) (fuel : Nat) :
    ∀ i s, MAX_STATES ≤ s.states.length → ec_inner nfa fuel i s = s := by
  induction fuel with
  | zero => intro i s _; rfl
  | succ f ih =>
    intro i s h
    unfold ec_inner
    split
    · rw [eps_from_cap nfa s _ h]
      exact ih (i + 1) s h
    · rfl

theorem ec_pass_cap (nfa : NFA) (s : StateSet)
    (h : MAX_STATES ≤ s.states.length) : ec_pass nfa s = s :=
  ec_inner_cap nfa _ 0 s h

theorem extends_eq_of_le (a b : StateSet) (h : SetExtends a b)
    (hlen : b.states.length ≤ a.states.length) : b = a := by
  obtain ⟨u, hu⟩ := h
  have hul : u = [] := by
    have := congrArg List.length hu
    simp at this
    have : u.length = 0 := by omega
    exact List.eq_nil_of_length_eq_zero this
  cases a with
  | mk av =>
    cases b with
    | mk bv =>
      simp only [StateSet.mk.injEq]
      rw [hul] at hu
      simpa using hu

theorem ec_outer_stable (nfa : NFA) (fuel : Nat) :
    ∀ s, MAX_STATES + 1 ≤ fuel + s.states.length →
    ec_pass nfa (ec_outer nfa fuel s) = ec_outer nfa fuel s := by
  induction fuel with
  | zero =>
    intro s h
    exact ec_pass_cap nfa s (by omega)
  | succ f ih =>
    intro s h
    unfold ec_outer
    dsimp only
    split
    · apply ih
      omega
    · have hext := ec_pass_extends nfa s
      have heq : ec_pass nfa s = s := extends_eq_of_le s (ec_pass nfa s) hext (by omega)
      rw [heq]
      exact heq

/-- C10: epsilon_closure is extensive (the closure contains every state
of the input set) and idempotent as a set operation: applying it twice
gives the same state set as applying it once (here even the same member
list). -/
theorem C10_epsilon_closure (nfa : NFA) (s : StateSet) :
    (∀ q ∈ s.states, q ∈ (epsilon_closure nfa s).states) ∧
    (∀ q : Int, q ∈ (epsilon_closure nfa (epsilon_closure nfa s)).states ↔
      q ∈ (epsilon_closure nfa s).states) := by
  constructor
  · intro q hq
    obtain ⟨u, hu⟩ := epsilon_closure_extends nfa s
    rw [hu]
    exact List.mem_append_left u hq
  · have hstable : ec_pass nfa (epsilon_closure nfa s) = epsilon_closure nfa s :=
      ec_outer_stable nfa (MAX_STATES + 1) s (by omega)
    have hidem : epsilon_closure nfa (epsilon_closure nfa s) = epsilon_closure nfa s := by
      show ec_outer nfa (MAX_STATES + 1) (epsilon_closure nfa s) = _
      show ec_outer nfa (100 + 1) (epsilon_closure nfa s) = _
      unfold ec_outer
      rw [hstable]
      rw [if_neg (by omega)]
    rw [hidem]
    intro q
    rfl


/- ===== Claims C3 and C4 ===== -/

/-- A well-formed one-state DFA whose single state is accepting
(alphabet {a}, self-loop).  Accepting set and transition targets lie
within the declared states. -/
def exAllFinal : DFA :=
  { transition :=
      setCell (List.replicate MAX_STATES (List.replicate MAX_ALPHABET (-1 : Int)))
        0 97 0,
    num_states := 1, start_state := 0,
    final_states := (List.replicate MAX_STATES false).set 0 true,
    alphabet_size := 1, alphabet := [97] }

/-- A well-formed one-state DFA whose single state is rejecting
(alphabet {a}, self-loop). -/
def exLoop : DFA :=
  { transition :=
      setCell (List.replicate MAX_STATES (List.replicate MAX_ALPHABET (-1 : Int)))
        0 97 0,
    num_states := 1, start_state := 0,
    final_states := List.replicate MAX_STATES false,
    alphabet_size := 1, alphabet := [97] }

set_option maxRecDepth 100000 in
/-- C3 counterexample: minimizing the one-state all-accepting DFA yields
2 states (the initial partition always allocates ids 0 and 1, even when
one class is empty), so the output is not minimal and its state count
exceeds the input's. -/
theorem C3_minimize_counterexample :
    (minimize_dfa exAllFinal).num_states = 2 ∧ exAllFinal.num_states = 1 ∧
    ¬((minimize_dfa exAllFinal).num_states ≤ exAllFinal.num_states) := by
  refine ⟨by decide, by decide, by decide⟩

set_option maxRecDepth 100000 in
/-- C4 counterexample: for the one-state all-rejecting self-loop DFA,
minimize_dfa yields 2 states but minimizing again yields 3: the junk
state left by the empty accepting class is split from the live state in
the second run (its row is all "no transition"), allocating a fresh id
while ids 0 and 1 are still both counted. -/
theorem C4_idempotence_counterexample :
    (minimize_dfa exLoop).num_states = 2 ∧
    (minimize_dfa (minimize_dfa exLoop)).num_states = 3 ∧
    ¬((minimize_dfa (minimize_dfa exLoop)).num_states =
      (minimize_dfa exLoop).num_states) := by
  refine ⟨by decide, by decide, by decide⟩

set_option maxRecDepth 100000 in
/-- C4 (amended): minimize_dfa is not idempotent in state count for
every well-formed DFA (see the counterexample), but it is on the
repository's identifier DFA, where both state counts are 2. -/
theorem C4_idempotence_amended :
    (minimize_dfa (minimize_dfa (nfa_to_dfa create_nfa_for_identifier))).num_states
      = (minimize_dfa (nfa_to_dfa create_nfa_for_identifier)).num_states ∧
    (minimize_dfa (nfa_to_dfa create_nfa_for_identifier)).num_states = 2 := by
  refine ⟨by decide, by decide⟩


/- ===== the computed identifier DFA (used by C2) ===== -/

/-- The transition cell the subset construction produces for the
identifier NFA: state 0 steps to 1 on letters/underscore, state 1 steps
to 1 on letters/digits/underscore, everything else is -1. -/
def identCell (q c : Nat) : Int :=
  if q = 0 ∧ isLetterCode c = true then 1
  else if q = 1 ∧ isWordCode c = true then 1
  else -1

/-- The full 100x128 transition table of the identifier DFA. -/
def identGrid : List (List Int) :=
  (List.range MAX_STATES).map (fun q => (List.range MAX_ALPHABET).map (identCell q))

/-- The accepting array of the identifier DFA: exactly state 1. -/
def identFinals : List Bool := (List.replicate MAX_STATES false).set 1 true

set_option maxRecDepth 100000 in
theorem did_transition :
    (nfa_to_dfa create_nfa_for_identifier).transition = identGrid := by decide

set_option maxRecDepth 100000 in
theorem did_start :
    (nfa_to_dfa create_nfa_for_identifier).start_state = 0 := by decide

set_option maxRecDepth 100000 in
theorem did_finals :
    (nfa_to_dfa create_nfa_for_identifier).final_states = identFinals := by decide

theorem identGrid_lookup (q c : Nat) (hq : q < MAX_STATES) (hc : c < MAX_ALPHABET) :
    (identGrid.getD q []).getD c (-1) = identCell q c := by
  have h1 : identGrid.getD q [] = (List.range MAX_ALPHABET).map (identCell q) := by
    unfold identGrid
    rw [List.getD_eq_getElem?_getD, List.getElem?_map, List.getElem?_range hq]
    rfl
  rw [h1, List.getD_eq_getElem?_getD, List.getElem?_map, List.getElem?_range hc]
  rfl

theorem did_step0 (c : Char) :
    dfa_step (nfa_to_dfa create_nfa_for_identifier) 0 c =
      (if isLetterCode c.toNat = true then 1 else -1) := by
  unfold dfa_step
  rw [if_neg (by decide)]
  unfold dfa_lookup
  by_cases hc : c.toNat < MAX_ALPHABET
  · rw [if_pos ⟨le_refl 0, by decide, hc⟩, did_transition]
    rw [show ((0 : Int)).toNat = 0 from rfl]
    rw [identGrid_lookup 0 c.toNat (by decide) hc]
    unfold identCell
    by_cases hl : isLetterCode c.toNat = true
    · rw [if_pos ⟨rfl, hl⟩, if_pos hl]
    · rw [if_neg (fun hx => hl hx.2), if_neg (fun hx => absurd hx.1 (by decide)),
        if_neg hl]
  · rw [if_neg (fun hx => hc hx.2.2)]
    rw [if_neg (show ¬isLetterCode c.toNat = true by
      unfold isLetterCode
      simp only [decide_eq_true_eq]
      unfold MAX_ALPHABET at hc
      omega)]

theorem did_step1 (c : Char) :
    dfa_step (nfa_to_dfa create_nfa_for_identifier) 1 c =
      (if isWordCode c.toNat = true then 1 else -1) := by
  unfold dfa_step
  rw [if_neg (by decide)]
  unfold dfa_lookup
  by_cases hc : c.toNat < MAX_ALPHABET
  · rw [if_pos ⟨by decide, by decide, hc⟩, did_transition]
    rw [show ((1 : Int)).toNat = 1 from rfl]
    rw [identGrid_lookup 1 c.toNat (by decide) hc]
    unfold identCell
    by_cases hl : isWordCode c.toNat = true
    · rw [if_neg (fun hx => absurd hx.1 (by decide)), if_pos ⟨rfl, hl⟩, if_pos hl]
    · rw [if_neg (fun hx => absurd hx.1 (by decide)), if_neg (fun hx => hl hx.2),
        if_neg hl]
  · rw [if_neg (fun hx => hc hx.2.2)]
    rw [if_neg (show ¬isWordCode c.toNat = true by
      unfold isWordCode isLetterCode
      simp only [Bool.or_eq_true, decide_eq_true_eq]
      unfold MAX_ALPHABET at hc
      omega)]

theorem dfa_run_dead (d : DFA) (s : List Char) : dfa_run d (-1) s = -1 := by
  induction s with
  | nil => rfl
  | cons c cs ih =>
    unfold dfa_run at ih ⊢
    simp only [List.foldl_cons]
    rw [show dfa_step d (-1) c = -1 from by unfold dfa_step; rw [if_pos rfl]]
    exact ih

/- ===== minimize_dfa: general language preservation ===== -/

/-- Partition value of state `i` (reads `partition[i]`). -/
def pVal (part : List Int) (i : Nat) : Int := part.getD i 0

/-- The split step inside a block of one refinement pass: `s2` moves to
a fresh partition id when distinguishable from the representative `s1`. -/
def splitStep (d : DFA) (part : List Int) (s1 : Nat)
    (acc2 : List Int × Int × Bool) (s2 : Nat) : List Int × Int × Bool :=
  if distinguishable d part s1 s2 = true then
    (acc2.1.set s2 acc2.2.1, acc2.2.1 + 1, true)
  else acc2

theorem minimizePassBlock_eq (d : DFA) (part : List Int) (n : Nat)
    (acc : List Int × Int × Bool) (p : Int) :
    minimizePassBlock d part n acc p =
      match collectBlock part n p with
      | [] => acc
      | [_] => acc
      | s1 :: restMembers => restMembers.foldl (splitStep d part s1) acc := rfl

/-- One refinement pass applied to one block id, as minimizePass folds it. -/
def passBlockStep (d : DFA) (part : List Int)
    (acc : List Int × Int × Bool) (p : Int) : List Int × Int × Bool :=
  minimizePassBlock d part d.num_states.toNat acc p

theorem flatMap_singleton_map (l : List Nat) :
    (l.flatMap fun a => [(a : Int)]) = l.map (fun a : Nat => (a : Int)) := by
  induction l with
  | nil => rfl
  | cons x t ih => simp only [List.flatMap_cons, List.map_cons, ih]; rfl

theorem minimizePass_eq (d : DFA) (part : List Int) (numParts : Nat) :
    minimizePass d part numParts =
      ((List.range numParts).map (fun a : Nat => (a : Int))).foldl
        (passBlockStep d part) (part, (numParts : Int), false) := by
  unfold minimizePass passBlockStep
  have h : ((List.range numParts : List Nat) : List Int) =
      (List.range numParts).map (fun a : Nat => (a : Int)) :=
    flatMap_singleton_map (List.range numParts)
  rw [h]

/-- The initial partition of minimize_dfa (accepting states to id 1,
the rest to id 0). -/
def initPart (d : DFA) : List Int :=
  (List.range MAX_STATES).map
    (fun i => if i < d.num_states.toNat then
      (if d.final_states.getD i false then 1 else 0) else 0)

/-- The refined partition and id count that minimize_dfa settles on. -/
def refinedPair (d : DFA) : List Int × Nat :=
  refineLoop d (MAX_STATES + 1) (initPart d) 2

/-- The grid write for one symbol while rebuilding state `i`'s row. -/
def rowStep (d : DFA) (part : List Int) (i : Nat)
    (g : List (List Int)) (sym : Int) : List (List Int) :=
  let next := cellOf d i sym
  if next ≠ -1 then
    setCell g (pVal part i).toNat sym.toNat (pVal part next.toNat)
  else g

/-- The rebuild step for one original state: mark its block accepting if
the state is accepting, and copy its outgoing transitions onto the
block's row. -/
def rebuildStep (d : DFA) (part : List Int)
    (gf : List (List Int) × List Bool) (i : Nat) :
    List (List Int) × List Bool :=
  let p := pVal part i
  let f2 := if d.final_states.getD i false then gf.2.set p.toNat true else gf.2
  let g2 := d.alphabet.foldl (rowStep d part i) gf.1
  (g2, f2)

/-- The rebuilt transition table and accepting array of minimize_dfa. -/
def minRebuild (d : DFA) (part : List Int) :
    List (List Int) × List Bool :=
  (List.range d.num_states.toNat).foldl (rebuildStep d part)
    (List.replicate MAX_STATES (List.replicate MAX_ALPHABET (-1 : Int)),
     List.replicate MAX_STATES false)

theorem minimize_dfa_parts (d : DFA) :
    minimize_dfa d =
      { transition := (minRebuild d (refinedPair d).1).1,
        num_states := (((refinedPair d).2 : Nat) : Int),
        start_state := (refinedPair d).1.getD d.start_state.toNat 0,
        final_states := (minRebuild d (refinedPair d).1).2,
        alphabet_size := d.alphabet_size,
        alphabet := d.alphabet } := rfl

/- ===== list utilities ===== -/

theorem getD_set_of_ne {α : Type} (l : List α) (i j : Nat) (v dflt : α)
    (h : i ≠ j) : (l.set i v).getD j dflt = l.getD j dflt := by
  rw [List.getD_eq_getElem?_getD, List.getD_eq_getElem?_getD,
    List.getElem?_set_ne h]

theorem getD_set_self {α : Type} (l : List α) (i : Nat) (v dflt : α)
    (h : i < l.length) : (l.set i v).getD i dflt = v := by
  rw [List.getD_eq_getElem?_getD, List.getElem?_set_self h]; rfl

theorem getD_map_range (n : Nat) (f : Nat → Int) (i : Nat) (dflt : Int)
    (h : i < n) : ((List.range n).map f).getD i dflt = f i := by
  rw [List.getD_eq_getElem?_getD, List.getElem?_map, List.getElem?_range h]; rfl

theorem getD_replicate {α : Type} (n : Nat) (v dflt : α) (i : Nat)
    (h : i < n) : (List.replicate n v).getD i dflt = v := by
  rw [List.getD_eq_getElem?_getD, List.getElem?_replicate_of_lt h]; rfl

theorem getD_of_ge {α : Type} (l : List α) (i : Nat) (dflt : α)
    (h : l.length ≤ i) : l.getD i dflt = dflt := by
  rw [List.getD_eq_getElem?_getD, List.getElem?_eq_none h]; rfl

/-- Flipping one counted element of a duplicate-free list down decreases
countP by exactly one. -/
theorem countP_flip (p q : Nat → Bool) (a : Nat) :
    ∀ l : List Nat, l.Nodup → a ∈ l → p a = true → q a = false →
      (∀ b ∈ l, b ≠ a → p b = q b) → l.countP q + 1 = l.countP p := by
  intro l
  induction l with
  | nil => intro _ h; cases h
  | cons x t ih =>
    intro hnd hmem hpa hqa hoth
    rw [List.countP_cons, List.countP_cons]
    rcases List.mem_cons.mp hmem with hax | hat
    · subst hax
      have ht : t.countP q = t.countP p := by
        apply List.countP_congr
        intro b hb
        have hbne : b ≠ a := fun he => (List.nodup_cons.mp hnd).1 (he ▸ hb)
        rw [hoth b (List.mem_cons_of_mem _ hb) hbne]
      rw [ht, hpa, hqa]
      simp
    · have hxa : x ≠ a := by
        intro he
        exact (List.nodup_cons.mp hnd).1 (he ▸ hat)
      rw [hoth x (List.mem_cons_self _ _) hxa]
      have := ih (List.nodup_cons.mp hnd).2 hat hpa hqa
        (fun b hb hbne => hoth b (List.mem_cons_of_mem _ hb) hbne)
      omega

theorem countP_pos_of_mem (p : Nat → Bool) (l : List Nat) (a : Nat)
    (ha : a ∈ l) (hpa : p a = true) : 1 ≤ l.countP p := by
  have : 0 < l.countP p := List.countP_pos_iff.mpr ⟨a, ha, hpa⟩
  omega

/- ===== well-formedness and refinement invariants ===== -/

/-- Well-formedness of a DFA as minimize_dfa needs it: at least one
state, room for one extra partition id in the MAX_STATES arrays, a
start state in range, alphabet symbols that are valid character codes,
and transitions that either say "no transition" or stay in range. -/
def MinWF (d : DFA) : Prop :=
  1 ≤ d.num_states ∧ d.num_states.toNat + 1 ≤ MAX_STATES ∧
  0 ≤ d.start_state ∧ d.start_state < d.num_states ∧
  (∀ sym ∈ d.alphabet, 0 ≤ sym ∧ sym < (MAX_ALPHABET : Int)) ∧
  (∀ i : Nat, i < d.num_states.toNat → ∀ sym ∈ d.alphabet,
    cellOf d i sym = -1 ∨ (0 ≤ cellOf d i sym ∧ cellOf d i sym < d.num_states))

instance (d : DFA) : Decidable (MinWF d) := by
  unfold MinWF
  infer_instance

/-- The number of states currently holding one of the two initial
partition ids. -/
def countLow (n : Nat) (part : List Int) : Nat :=
  (List.range n).countP (fun i => decide (part.getD i 0 < 2))

/-- The invariant of the refinement loop: the partition array is full
width, ids of live states lie below the id counter, ids ≥ 2 are
singletons, states sharing an id share finality, the id counter plus
the number of low-id states never exceeds num_states + 2, and some live
state keeps a low id. -/
def PartInv (d : DFA) (part : List Int) (np : Int) : Prop :=
  part.length = MAX_STATES ∧ 2 ≤ np ∧
  (∀ i, i < d.num_states.toNat → 0 ≤ pVal part i ∧ pVal part i < np) ∧
  (∀ i j, i < d.num_states.toNat → j < d.num_states.toNat →
    pVal part i = pVal part j → 2 ≤ pVal part i → i = j) ∧
  (∀ i j, i < d.num_states.toNat → j < d.num_states.toNat →
    pVal part i = pVal part j →
    d.final_states.getD i false = d.final_states.getD j false) ∧
  np + (countLow d.num_states.toNat part : Int) ≤ (d.num_states.toNat : Int) + 2 ∧
  (∃ i, i < d.num_states.toNat ∧ pVal part i < 2)

/-- What one refinement pass maintains, relative to the pass input
`part` and its id counter `np0`: each live state keeps its old id or
got a fresh one below the counter, fresh ids are unique, the id counter
plus the low-id count does not grow, block representatives keep their
ids, and the changed flag implies a fresh id was allocated. -/
def PassCore (d : DFA) (part : List Int) (np0 : Int)
    (acc : List Int × Int × Bool) : Prop :=
  acc.1.length = MAX_STATES ∧
  np0 ≤ acc.2.1 ∧
  (∀ i, i < d.num_states.toNat →
    acc.1.getD i 0 = pVal part i ∨
      (np0 ≤ acc.1.getD i 0 ∧ acc.1.getD i 0 < acc.2.1)) ∧
  (∀ i j, i < d.num_states.toNat → j < d.num_states.toNat →
    acc.1.getD i 0 = acc.1.getD j 0 → np0 ≤ acc.1.getD i 0 → i = j) ∧
  acc.2.1 + (countLow d.num_states.toNat acc.1 : Int) ≤
    np0 + (countLow d.num_states.toNat part : Int) ∧
  (∀ p s1 rest, collectBlock part d.num_states.toNat p = s1 :: rest →
    acc.1.getD s1 0 = pVal part s1) ∧
  (acc.2.2 = true → np0 < acc.2.1)

/-- States moved so far belong to blocks that are no longer pending. -/
def MovedOut (part : List Int) (n : Nat) (acc1 : List Int)
    (P : List Int) : Prop :=
  ∀ i, i < n → acc1.getD i 0 ≠ pVal part i → pVal part i ∉ P

/-- While a block is being processed: moved states belong to no pending
block, and those of the current block are no longer among the members
still to be compared. -/
def MovedIn (part : List Int) (n : Nat) (acc1 : List Int)
    (pcur : Int) (P : List Int) (M : List Nat) : Prop :=
  ∀ i, i < n → acc1.getD i 0 ≠ pVal part i →
    pVal part i ∉ P ∧ (pVal part i = pcur → i ∉ M)

/-- Two states whose rows agree under the partition: the same symbols
have transitions, and targets land in the same block. -/
def Agree (d : DFA) (part : List Int) (i j : Nat) : Prop :=
  ∀ sym ∈ d.alphabet,
    (cellOf d i sym = -1 ↔ cellOf d j sym = -1) ∧
    (cellOf d i sym ≠ -1 → cellOf d j sym ≠ -1 →
      pVal part (cellOf d i sym).toNat = pVal part (cellOf d j sym).toNat)

/-- A stable partition: states sharing a block have agreeing rows. -/
def StableP (d : DFA) (part : List Int) : Prop :=
  ∀ i j, i < d.num_states.toNat → j < d.num_states.toNat →
    pVal part i = pVal part j → Agree d part i j

/- ===== block membership ===== -/

theorem collectBlock_nodup (part : List Int) (n : Nat) (p : Int) :
    (collectBlock part n p).Nodup :=
  List.Nodup.filter _ (List.nodup_range n)

theorem mem_collectBlock (part : List Int) (n : Nat) (p : Int) (i : Nat) :
    i ∈ collectBlock part n p ↔ i < n ∧ pVal part i = p := by
  unfold collectBlock pVal
  rw [List.mem_filter, List.mem_range]
  simp

/- ===== agreement from a failed distinguishability test ===== -/

theorem agree_of_not_distinguishable (d : DFA) (part : List Int)
    (s1 s2 : Nat) (h : distinguishable d part s1 s2 = false) :
    Agree d part s1 s2 := by
  intro sym hsym
  unfold distinguishable at h
  rw [List.any_eq_false] at h
  have h2 := h sym hsym
  dsimp only at h2
  rw [Bool.not_eq_true, Bool.or_eq_false_iff] at h2
  obtain ⟨ha, hb⟩ := h2
  rw [bne_eq_false_iff_eq, decide_eq_decide] at ha
  refine ⟨ha, fun h1 h2' => ?_⟩
  rw [Bool.and_eq_false_iff] at hb
  rcases hb with hb1 | hb2
  · rw [Bool.and_eq_false_iff] at hb1
    rcases hb1 with hb3 | hb4
    · exact absurd (by simpa using hb3) h1
    · exact absurd (by simpa using hb4) h2'
  · exact bne_eq_false_iff_eq.mp hb2

theorem Agree.refl' (d : DFA) (part : List Int) (i : Nat) :
    Agree d part i i := fun _ _ => ⟨Iff.rfl, fun _ _ => rfl⟩

theorem Agree.symm' {d : DFA} {part : List Int} {i j : Nat}
    (h : Agree d part i j) : Agree d part j i := by
  intro sym hsym
  obtain ⟨h1, h2⟩ := h sym hsym
  exact ⟨h1.symm, fun ha hb => (h2 hb ha).symm⟩

theorem Agree.trans' {d : DFA} {part : List Int} {i j k : Nat}
    (h1 : Agree d part i j) (h2 : Agree d part j k) : Agree d part i k := by
  intro sym hsym
  obtain ⟨ha, hb⟩ := h1 sym hsym
  obtain ⟨hc, hd⟩ := h2 sym hsym
  refine ⟨ha.trans hc, fun hi hk => ?_⟩
  have hj : cellOf d j sym ≠ -1 := fun he => hi (ha.mpr he)
  exact (hb hi hj).trans (hd hj hk)

/- ===== one split step preserves the pass invariant ===== -/

theorem splitStep_core (d : DFA) (part : List Int) (np0 : Int)
    (hInv : PartInv d part np0)
    (hn : d.num_states.toNat + 1 ≤ MAX_STATES)
    (pcur : Int) (s1 : Nat) (rest0 : List Nat)
    (hblk : collectBlock part d.num_states.toNat pcur = s1 :: rest0)
    (s2 : Nat) (hs2n : s2 < d.num_states.toNat)
    (hs2p : pVal part s2 = pcur) (hs2ne : s2 ≠ s1) (hp2 : pcur < 2)
    (acc : List Int × Int × Bool) (hc : PassCore d part np0 acc)
    (hs2un : acc.1.getD s2 0 = pVal part s2) :
    PassCore d part np0 (acc.1.set s2 acc.2.1, acc.2.1 + 1, true) := by
  obtain ⟨hlen, hnp, hu, hx, hy, hH, hfl⟩ := hc
  obtain ⟨h0, h2, ha, hb, hfin, hbound, hlow⟩ := hInv
  have hs2len : s2 < acc.1.length := by rw [hlen]; omega
  refine ⟨?_, ?_, ?_, ?_, ?_, ?_, ?_⟩
  · dsimp only
    rw [List.length_set]; exact hlen
  · dsimp only
    omega
  · dsimp only
    intro i hi
    by_cases hi2 : i = s2
    · subst hi2
      rw [getD_set_self _ _ _ _ hs2len]
      right
      omega
    · rw [getD_set_of_ne _ _ _ _ _ (fun he => hi2 he.symm)]
      rcases hu i hi with hl | hr
      · exact Or.inl hl
      · right; omega
  · dsimp only
    intro i j hi hj heq hge
    by_cases hi2 : i = s2 <;> by_cases hj2 : j = s2
    · rw [hi2, hj2]
    · exfalso
      subst hi2
      rw [getD_set_self _ _ _ _ hs2len] at heq
      rw [getD_set_of_ne _ _ _ _ _ (fun he => hj2 he.symm)] at heq
      rcases hu j hj with hl | hr
      · have := (ha j hj).2
        rw [hl] at heq
        omega
      · omega
    · exfalso
      subst hj2
      rw [getD_set_self _ _ _ _ hs2len] at heq
      rw [getD_set_of_ne _ _ _ _ _ (fun he => hi2 he.symm)] at heq hge
      rcases hu i hi with hl | hr
      · have := (ha i hi).2
        rw [hl] at heq
        omega
      · omega
    · rw [getD_set_of_ne _ _ _ _ _ (fun he => hi2 he.symm)] at heq hge
      rw [getD_set_of_ne _ _ _ _ _ (fun he => hj2 he.symm)] at heq
      exact hx i j hi hj heq hge
  · dsimp only
    have hflip :
        countLow d.num_states.toNat (acc.1.set s2 acc.2.1) + 1 =
        countLow d.num_states.toNat acc.1 := by
      unfold countLow
      apply countP_flip _ _ s2 _ (List.nodup_range _)
        (List.mem_range.mpr hs2n)
      · rw [hs2un]
        have : pVal part s2 < 2 := by rw [hs2p]; exact hp2
        exact decide_eq_true this
      · have : ¬(acc.1.set s2 acc.2.1).getD s2 0 < 2 := by
          rw [getD_set_self _ _ _ _ hs2len]
          omega
        exact decide_eq_false this
      · intro b _ hbne
        rw [getD_set_of_ne _ _ _ _ _ (fun he => hbne he.symm)]
    omega
  · dsimp only
    intro p s1' rest hcb
    have hmem : s1' ∈ collectBlock part d.num_states.toNat p := by
      rw [hcb]; exact List.mem_cons_self _ _
    rw [mem_collectBlock] at hmem
    by_cases hs1'2 : s1' = s2
    · exfalso
      subst hs1'2
      have hpp : p = pcur := by rw [← hmem.2, hs2p]
      rw [hpp] at hcb
      rw [hcb] at hblk
      injection hblk with h1 h2
      exact hs2ne h1
    · rw [getD_set_of_ne _ _ _ _ _ (fun he => hs1'2 he.symm)]
      exact hH p s1' rest hcb
  · dsimp only
    intro _
    omega

/- ===== the fold over a block's remaining members ===== -/

theorem splitFold_inv (d : DFA) (part : List Int) (np0 : Int)
    (hInv : PartInv d part np0)
    (hn : d.num_states.toNat + 1 ≤ MAX_STATES)
    (pcur : Int) (P' : List Int) (hpP : pcur ∉ P')
    (s1 : Nat) (rest0 : List Nat)
    (hblk : collectBlock part d.num_states.toNat pcur = s1 :: rest0)
    (hp2 : pcur < 2) :
    ∀ M : List Nat, M.Nodup →
      (∀ x ∈ M, x < d.num_states.toNat ∧ pVal part x = pcur ∧ x ≠ s1) →
      ∀ acc : List Int × Int × Bool, PassCore d part np0 acc →
        MovedIn part d.num_states.toNat acc.1 pcur P' M →
        PassCore d part np0 (M.foldl (splitStep d part s1) acc) ∧
        MovedOut part d.num_states.toNat
          (M.foldl (splitStep d part s1) acc).1 P' := by
  intro M
  induction M with
  | nil =>
    intro _ _ acc hc hm
    exact ⟨hc, fun i hi hne => (hm i hi hne).1⟩
  | cons s2 M' ih =>
    intro hnd hmem acc hc hm
    rw [List.foldl_cons]
    obtain ⟨hs2n, hs2p, hs2ne⟩ := hmem s2 (List.mem_cons_self _ _)
    have hs2un : acc.1.getD s2 0 = pVal part s2 := by
      by_contra hne
      exact ((hm s2 hs2n hne).2 hs2p) (List.mem_cons_self _ _)
    by_cases hdist : distinguishable d part s1 s2 = true
    · have hstep : splitStep d part s1 acc s2 =
          (acc.1.set s2 acc.2.1, acc.2.1 + 1, true) := by
        unfold splitStep; rw [if_pos hdist]
      rw [hstep]
      apply ih (List.nodup_cons.mp hnd).2
        (fun x hx' => hmem x (List.mem_cons_of_mem _ hx'))
      · exact splitStep_core d part np0
          ⟨hInv.1, hInv.2.1, hInv.2.2.1, hInv.2.2.2.1, hInv.2.2.2.2.1,
            hInv.2.2.2.2.2.1, hInv.2.2.2.2.2.2⟩
          hn pcur s1 rest0 hblk s2 hs2n hs2p hs2ne hp2 acc hc hs2un
      · intro i hi hne
        dsimp only at hne
        by_cases hi2 : i = s2
        · subst hi2
          refine ⟨by rw [hs2p]; exact hpP, fun _ hmm => ?_⟩
          exact (List.nodup_cons.mp hnd).1 hmm
        · rw [getD_set_of_ne _ _ _ _ _ (fun he => hi2 he.symm)] at hne
          obtain ⟨hP, hM⟩ := hm i hi hne
          exact ⟨hP, fun hpc hin => hM hpc (List.mem_cons_of_mem _ hin)⟩
    · have hstep : splitStep d part s1 acc s2 = acc := by
        unfold splitStep; rw [if_neg hdist]
      rw [hstep]
      apply ih (List.nodup_cons.mp hnd).2
        (fun x hx' => hmem x (List.mem_cons_of_mem _ hx'))
      · exact hc
      · intro i hi hne
        obtain ⟨hP, hM⟩ := hm i hi hne
        exact ⟨hP, fun hpc hin => hM hpc (List.mem_cons_of_mem _ hin)⟩

/- ===== one block of a pass ===== -/

theorem passBlock_inv (d : DFA) (part : List Int) (np0 : Int)
    (hInv : PartInv d part np0)
    (hn : d.num_states.toNat + 1 ≤ MAX_STATES)
    (pcur : Int) (P' : List Int) (hpP : pcur ∉ P')
    (acc : List Int × Int × Bool) (hc : PassCore d part np0 acc)
    (hm : MovedOut part d.num_states.toNat acc.1 (pcur :: P')) :
    PassCore d part np0
      (minimizePassBlock d part d.num_states.toNat acc pcur) ∧
    MovedOut part d.num_states.toNat
      (minimizePassBlock d part d.num_states.toNat acc pcur).1 P' := by
  have hmw : MovedOut part d.num_states.toNat acc.1 P' :=
    fun i hi hne hmem' => hm i hi hne (List.mem_cons_of_mem _ hmem')
  rw [minimizePassBlock_eq]
  rcases hcb : collectBlock part d.num_states.toNat pcur with _ | ⟨s1, rest⟩
  · exact ⟨hc, hmw⟩
  rcases rest with _ | ⟨s2, rest'⟩
  · exact ⟨hc, hmw⟩
  have hnd := collectBlock_nodup part d.num_states.toNat pcur
  rw [hcb] at hnd
  have hs1 : s1 < d.num_states.toNat ∧ pVal part s1 = pcur := by
    rw [← mem_collectBlock, hcb]
    exact List.mem_cons_self _ _
  have hs2 : s2 < d.num_states.toNat ∧ pVal part s2 = pcur := by
    rw [← mem_collectBlock, hcb]
    exact List.mem_cons_of_mem _ (List.mem_cons_self _ _)
  have hs12 : s1 ≠ s2 := by
    intro he
    exact (List.nodup_cons.mp hnd).1 (he ▸ List.mem_cons_self _ _)
  have hp2 : pcur < 2 := by
    by_contra hge
    push_neg at hge
    have h2le : 2 ≤ pVal part s1 := by rw [hs1.2]; exact hge
    exact hs12 (hInv.2.2.2.1 s1 s2 hs1.1 hs2.1 (by rw [hs1.2, hs2.2]) h2le)
  have hmi : MovedIn part d.num_states.toNat acc.1 pcur P' (s2 :: rest') := by
    intro i hi hne
    have hnin := hm i hi hne
    refine ⟨fun hmem' => hnin (List.mem_cons_of_mem _ hmem'), fun hpc _ => ?_⟩
    exact hnin (by rw [hpc]; exact List.mem_cons_self _ _)
  have hmem : ∀ x ∈ s2 :: rest',
      x < d.num_states.toNat ∧ pVal part x = pcur ∧ x ≠ s1 := by
    intro x hx'
    have hxb : x ∈ collectBlock part d.num_states.toNat pcur := by
      rw [hcb]; exact List.mem_cons_of_mem _ hx'
    rw [mem_collectBlock] at hxb
    refine ⟨hxb.1, hxb.2, fun he => ?_⟩
    exact (List.nodup_cons.mp hnd).1 (he ▸ hx')
  exact splitFold_inv d part np0 hInv hn pcur P' hpP s1 (s2 :: rest') hcb hp2
    (s2 :: rest') (List.nodup_cons.mp hnd).2 hmem acc hc hmi

/- ===== the fold over all pending block ids ===== -/

theorem passFold_inv (d : DFA) (part : List Int) (np0 : Int)
    (hInv : PartInv d part np0)
    (hn : d.num_states.toNat + 1 ≤ MAX_STATES) :
    ∀ P : List Int, P.Nodup →
      ∀ acc : List Int × Int × Bool, PassCore d part np0 acc →
        MovedOut part d.num_states.toNat acc.1 P →
        PassCore d part np0 (P.foldl (passBlockStep d part) acc) := by
  intro P
  induction P with
  | nil => exact fun _ acc hc _ => hc
  | cons p P' ih =>
    intro hnd acc hc hm
    rw [List.foldl_cons]
    obtain ⟨h1, h2⟩ := passBlock_inv d part np0 hInv hn p P'
      (List.nodup_cons.mp hnd).1 acc hc hm
    exact ih (List.nodup_cons.mp hnd).2 _ h1 h2

/- ===== the whole pass ===== -/

theorem minimizePass_core (d : DFA) (part : List Int) (np : Nat)
    (hInv : PartInv d part (np : Int))
    (hn : d.num_states.toNat + 1 ≤ MAX_STATES) :
    PassCore d part (np : Int) (minimizePass d part np) := by
  rw [minimizePass_eq]
  apply passFold_inv d part (np : Int) hInv hn _
    ((List.nodup_range np).map Nat.cast_injective)
  · refine ⟨hInv.1, le_refl _, fun i _ => Or.inl rfl, ?_, le_refl _,
      fun p s1 rest _ => rfl, fun h => by simp at h⟩
    intro i j hi hj heq hge
    dsimp only at heq hge
    have := (hInv.2.2.1 i hi).2
    have hpv : (part, (np : Int), false).1.getD i 0 = pVal part i := rfl
    rw [hpv] at hge
    omega
  · intro i _ hne
    exact absurd rfl hne

theorem minimizePass_post (d : DFA) (part : List Int) (np : Nat)
    (hInv : PartInv d part (np : Int))
    (hn : d.num_states.toNat + 1 ≤ MAX_STATES) :
    PartInv d (minimizePass d part np).1 (minimizePass d part np).2.1 ∧
    (np : Int) ≤ (minimizePass d part np).2.1 ∧
    ((minimizePass d part np).2.2 = true →
      (np : Int) < (minimizePass d part np).2.1) := by
  obtain ⟨hlen, hnp, hu, hx, hy, hH, hfl⟩ := minimizePass_core d part np hInv hn
  obtain ⟨h0, h2, ha, hb, hfin, hbound, hlow⟩ := hInv
  unfold pVal at hu hH ha hb hfin hlow
  unfold PartInv pVal
  refine ⟨⟨hlen, by omega, ?_, ?_, ?_, ?_, ?_⟩, hnp, hfl⟩
  · intro i hi
    have hai := ha i hi
    rcases hu i hi with hl | hr
    · rw [hl]
      omega
    · omega
  · intro i j hi hj heq hge
    rcases hu i hi with hli | hri <;> rcases hu j hj with hlj | hrj
    · apply hb i j hi hj (by rw [← hli, ← hlj, heq])
      rw [← hli]; exact hge
    · exfalso
      have := (ha i hi).2
      rw [hli] at heq
      omega
    · exfalso
      have := (ha j hj).2
      rw [hlj] at heq
      omega
    · exact hx i j hi hj heq hri.1
  · intro i j hi hj heq
    rcases hu i hi with hli | hri <;> rcases hu j hj with hlj | hrj
    · exact hfin i j hi hj (by rw [← hli, ← hlj, heq])
    · exfalso
      have := (ha i hi).2
      rw [hli] at heq
      omega
    · exfalso
      have := (ha j hj).2
      rw [hlj] at heq
      omega
    · rw [hx i j hi hj heq hri.1]
  · omega
  · obtain ⟨i0, hi0, hlow0⟩ := hlow
    rcases hcb : collectBlock part d.num_states.toNat (part.getD i0 0)
        with _ | ⟨s1, rest⟩
    · exfalso
      have hmem0 : i0 ∈ collectBlock part d.num_states.toNat (part.getD i0 0) :=
        (mem_collectBlock _ _ _ _).mpr ⟨hi0, rfl⟩
      rw [hcb] at hmem0
      cases hmem0
    · have hs1 : s1 < d.num_states.toNat ∧ pVal part s1 = part.getD i0 0 := by
        rw [← mem_collectBlock, hcb]
        exact List.mem_cons_self _ _
      unfold pVal at hs1
      refine ⟨s1, hs1.1, ?_⟩
      rw [hH _ s1 rest hcb, hs1.2]
      exact hlow0

/- ===== the changed flag is monotone ===== -/

theorem splitStep_flag_mono (d : DFA) (part : List Int) (s1 : Nat) :
    ∀ M : List Nat, ∀ acc : List Int × Int × Bool, acc.2.2 = true →
      (M.foldl (splitStep d part s1) acc).2.2 = true := by
  intro M
  induction M with
  | nil => exact fun acc h => h
  | cons s2 M' ih =>
    intro acc h
    rw [List.foldl_cons]
    apply ih
    unfold splitStep
    split
    · rfl
    · exact h

theorem passBlock_flag_mono (d : DFA) (part : List Int) (n : Nat)
    (acc : List Int × Int × Bool) (p : Int) (h : acc.2.2 = true) :
    (minimizePassBlock d part n acc p).2.2 = true := by
  rw [minimizePassBlock_eq]
  rcases hcb : collectBlock part n p with _ | ⟨s1, rest⟩
  · exact h
  rcases rest with _ | ⟨s2, rest'⟩
  · exact h
  · exact splitStep_flag_mono d part s1 _ acc h

theorem passFold_flag_mono (d : DFA) (part : List Int) :
    ∀ P : List Int, ∀ acc : List Int × Int × Bool, acc.2.2 = true →
      (P.foldl (passBlockStep d part) acc).2.2 = true := by
  intro P
  induction P with
  | nil => exact fun acc h => h
  | cons p P' ih =>
    intro acc h
    rw [List.foldl_cons]
    exact ih _ (passBlock_flag_mono d part _ acc p h)

/- ===== a pass that reports no change did nothing ===== -/

theorem splitFold_false (d : DFA) (part : List Int) (s1 : Nat) :
    ∀ M : List Nat, ∀ acc : List Int × Int × Bool,
      (M.foldl (splitStep d part s1) acc).2.2 = false →
      M.foldl (splitStep d part s1) acc = acc ∧
      ∀ s2 ∈ M, distinguishable d part s1 s2 = false := by
  intro M
  induction M with
  | nil => exact fun acc _ => ⟨rfl, by simp⟩
  | cons s2 M' ih =>
    intro acc h
    rw [List.foldl_cons] at h ⊢
    by_cases hdist : distinguishable d part s1 s2 = true
    · exfalso
      have hstep : (splitStep d part s1 acc s2).2.2 = true := by
        unfold splitStep; rw [if_pos hdist]
      rw [splitStep_flag_mono d part s1 M' _ hstep] at h
      cases h
    · have hstep : splitStep d part s1 acc s2 = acc := by
        unfold splitStep; rw [if_neg hdist]
      rw [hstep] at h ⊢
      obtain ⟨he, hall⟩ := ih acc h
      refine ⟨he, fun x hx' => ?_⟩
      rcases List.mem_cons.mp hx' with h1 | h2
      · rw [h1]
        rw [Bool.not_eq_true] at hdist
        exact hdist
      · exact hall x h2

theorem passBlock_false (d : DFA) (part : List Int) (n : Nat)
    (acc : List Int × Int × Bool) (p : Int)
    (h : (minimizePassBlock d part n acc p).2.2 = false) :
    minimizePassBlock d part n acc p = acc ∧
    (∀ s1 rest, collectBlock part n p = s1 :: rest →
      ∀ s2 ∈ rest, distinguishable d part s1 s2 = false) := by
  rcases hcb : collectBlock part n p with _ | ⟨s1, rest⟩
  · have heq : minimizePassBlock d part n acc p = acc := by
      rw [minimizePassBlock_eq, hcb]
    refine ⟨heq, fun s1' rest' he => ?_⟩
    cases he
  rcases rest with _ | ⟨s2, rest'⟩
  · have heq : minimizePassBlock d part n acc p = acc := by
      rw [minimizePassBlock_eq, hcb]
    refine ⟨heq, fun s1' rest' he => ?_⟩
    injection he with h1 h2
    intro x hx'
    rw [← h2] at hx'
    cases hx'
  · have heq : minimizePassBlock d part n acc p =
        (s2 :: rest').foldl (splitStep d part s1) acc := by
      rw [minimizePassBlock_eq, hcb]
    rw [heq] at h
    obtain ⟨he, hall⟩ := splitFold_false d part s1 _ acc h
    rw [heq]
    refine ⟨he, fun s1' rest'' he' => ?_⟩
    injection he' with h1 h2
    intro x hx'
    rw [← h2] at hx'
    rw [← h1]
    exact hall x hx'

theorem passFold_false (d : DFA) (part : List Int) :
    ∀ P : List Int, ∀ acc : List Int × Int × Bool,
      (P.foldl (passBlockStep d part) acc).2.2 = false →
      P.foldl (passBlockStep d part) acc = acc ∧
      ∀ p ∈ P, ∀ s1 rest,
        collectBlock part d.num_states.toNat p = s1 :: rest →
        ∀ s2 ∈ rest, distinguishable d part s1 s2 = false := by
  intro P
  induction P with
  | nil => exact fun acc _ => ⟨rfl, by simp⟩
  | cons p P' ih =>
    intro acc h
    rw [List.foldl_cons] at h ⊢
    have hblk : (passBlockStep d part acc p).2.2 = false := by
      cases hval : (passBlockStep d part acc p).2.2
      · rfl
      · rw [passFold_flag_mono d part P' _ hval] at h
        cases h
    obtain ⟨he, hall⟩ :=
      passBlock_false d part d.num_states.toNat acc p hblk
    have he' : passBlockStep d part acc p = acc := he
    rw [he'] at h ⊢
    obtain ⟨he2, hall2⟩ := ih acc h
    refine ⟨he2, fun q hq => ?_⟩
    rcases List.mem_cons.mp hq with h1 | h2
    · rw [h1]
      exact hall
    · exact hall2 q h2

/- ===== a stable partition from a no-change pass ===== -/

theorem minimizePass_false_stable (d : DFA) (part : List Int) (np : Nat)
    (hInv : PartInv d part (np : Int))
    (hfalse : (minimizePass d part np).2.2 = false) :
    minimizePass d part np = (part, (np : Int), false) ∧
    StableP d part := by
  rw [minimizePass_eq] at hfalse ⊢
  obtain ⟨he, hall⟩ := passFold_false d part _ _ hfalse
  refine ⟨he, fun i j hi hj hij => ?_⟩
  have hbnd := hInv.2.2.1 i hi
  have hpmem : pVal part i ∈ (List.range np).map (fun a : Nat => (a : Int)) := by
    apply List.mem_map.mpr
    exact ⟨(pVal part i).toNat, List.mem_range.mpr (by omega), by omega⟩
  rcases hcb : collectBlock part d.num_states.toNat (pVal part i)
      with _ | ⟨s1, rest⟩
  · exfalso
    have hmem0 : i ∈ collectBlock part d.num_states.toNat (pVal part i) :=
      (mem_collectBlock _ _ _ _).mpr ⟨hi, rfl⟩
    rw [hcb] at hmem0
    cases hmem0
  · have hdall := hall (pVal part i) hpmem s1 rest hcb
    have hagree : ∀ x : Nat, x ∈ collectBlock part d.num_states.toNat
        (pVal part i) → Agree d part s1 x := by
      intro x hx'
      rw [hcb] at hx'
      rcases List.mem_cons.mp hx' with h1 | h2
      · rw [h1]; exact Agree.refl' d part s1
      · exact agree_of_not_distinguishable d part s1 x (hdall x h2)
    have hai : Agree d part s1 i :=
      hagree i ((mem_collectBlock _ _ _ _).mpr ⟨hi, rfl⟩)
    have haj : Agree d part s1 j :=
      hagree j ((mem_collectBlock _ _ _ _).mpr ⟨hj, hij.symm⟩)
    exact Agree.trans' (Agree.symm' hai) haj

/- ===== the initial partition satisfies the invariant ===== -/

theorem initPart_inv (d : DFA) (hwf : MinWF d) :
    PartInv d (initPart d) 2 := by
  obtain ⟨h1, hn, hs0, hsn, halpha, htrans⟩ := hwf
  have hval : ∀ i, i < d.num_states.toNat →
      pVal (initPart d) i =
        (if d.final_states.getD i false then 1 else 0) := by
    intro i hi
    unfold pVal initPart
    rw [getD_map_range _ _ _ _ (by unfold MAX_STATES at hn ⊢; omega)]
    rw [if_pos hi]
  have hb01 : ∀ i, i < d.num_states.toNat →
      pVal (initPart d) i = 0 ∨ pVal (initPart d) i = 1 := by
    intro i hi
    rw [hval i hi]
    split
    · right; rfl
    · left; rfl
  refine ⟨?_, le_refl _, ?_, ?_, ?_, ?_, ?_⟩
  · unfold initPart
    rw [List.length_map, List.length_range]
  · intro i hi
    rcases hb01 i hi with h | h <;> rw [h] <;> omega
  · intro i j hi hj heq hge
    rcases hb01 i hi with h | h <;> rw [h] at hge <;> omega
  · intro i j hi hj heq
    rw [hval i hi, hval j hj] at heq
    by_cases hfi : d.final_states.getD i false = true
      <;> by_cases hfj : d.final_states.getD j false = true
    · rw [hfi, hfj]
    · rw [if_pos hfi, if_neg hfj] at heq
      exact absurd heq (by decide)
    · rw [if_neg hfi, if_pos hfj] at heq
      exact absurd heq (by decide)
    · rw [Bool.not_eq_true] at hfi hfj
      rw [hfi, hfj]
  · have hcnt : countLow d.num_states.toNat (initPart d) ≤
        d.num_states.toNat := by
      unfold countLow
      calc (List.range d.num_states.toNat).countP
            (fun i => decide ((initPart d).getD i 0 < 2)) ≤
          (List.range d.num_states.toNat).length := List.countP_le_length _
        _ = d.num_states.toNat := List.length_range _
    omega
  · refine ⟨0, by omega, ?_⟩
    rcases hb01 0 (by omega) with h | h <;> rw [h] <;> omega

/- ===== the refinement loop reaches a stable partition ===== -/

theorem refineLoop_succ (d : DFA) (f : Nat) (part : List Int) (np : Nat) :
    refineLoop d (f + 1) part np =
      if (minimizePass d part np).2.2 then
        refineLoop d f (minimizePass d part np).1
          (minimizePass d part np).2.1.toNat
      else ((minimizePass d part np).1,
        (minimizePass d part np).2.1.toNat) := rfl

theorem refineLoop_post (d : DFA)
    (hn : d.num_states.toNat + 1 ≤ MAX_STATES) :
    ∀ (fuel np : Nat) (part : List Int), PartInv d part (np : Int) →
      MAX_STATES + 1 ≤ fuel + np →
      PartInv d (refineLoop d fuel part np).1
        (((refineLoop d fuel part np).2 : Nat) : Int) ∧
      StableP d (refineLoop d fuel part np).1 := by
  intro fuel
  induction fuel with
  | zero =>
    intro np part hInv hfuel
    exfalso
    obtain ⟨i0, hi0, hl0⟩ := hInv.2.2.2.2.2.2
    have hcnt : 1 ≤ countLow d.num_states.toNat part :=
      countP_pos_of_mem _ _ i0 (List.mem_range.mpr hi0) (decide_eq_true hl0)
    have hbound := hInv.2.2.2.2.2.1
    unfold MAX_STATES at hfuel hn
    omega
  | succ f ih =>
    intro np part hInv hfuel
    rw [refineLoop_succ]
    by_cases hch : (minimizePass d part np).2.2 = true
    · rw [if_pos hch]
      obtain ⟨hInv', hle, hlt⟩ := minimizePass_post d part np hInv hn
      have hlt' := hlt hch
      have h0 : 0 ≤ (minimizePass d part np).2.1 := by
        have := hInv'.2.1
        omega
      have hcast : (((minimizePass d part np).2.1.toNat : Nat) : Int) =
          (minimizePass d part np).2.1 := Int.toNat_of_nonneg h0
      apply ih
      · rw [hcast]
        exact hInv'
      · omega
    · rw [if_neg hch]
      rw [Bool.not_eq_true] at hch
      obtain ⟨heq, hstab⟩ := minimizePass_false_stable d part np hInv hch
      rw [heq]
      dsimp only
      constructor
      · have hcast : (((np : Int).toNat : Nat) : Int) = (np : Int) := by omega
        rw [hcast]
        exact hInv
      · exact hstab

theorem refined_post (d : DFA) (hwf : MinWF d) :
    PartInv d (refinedPair d).1 (((refinedPair d).2 : Nat) : Int) ∧
    StableP d (refinedPair d).1 := by
  unfold refinedPair
  apply refineLoop_post d hwf.2.1 _ _ _ (initPart_inv d hwf)
  unfold MAX_STATES
  omega

/- ===== the rebuilt grid ===== -/

/-- Read a cell of a rebuilt transition table. -/
def glook (G : List (List Int)) (q c : Nat) : Int :=
  (G.getD q []).getD c (-1)

/-- The rebuilt table stays a MAX_STATES × MAX_ALPHABET grid. -/
def GShape (G : List (List Int)) : Prop :=
  G.length = MAX_STATES ∧ ∀ r ∈ G, r.length = MAX_ALPHABET

/-- The value minimize_dfa writes for state `i` and symbol `sym`: the
block of the target, or -1 when there is no transition. -/
def vcell (d : DFA) (part : List Int) (i : Nat) (sym : Int) : Int :=
  if cellOf d i sym = -1 then -1 else pVal part (cellOf d i sym).toNat

/-- Every written cell of the grid is consistent: the entry for state
`i`'s block and a symbol is still unwritten or holds `i`'s value. -/
def GInv (d : DFA) (part : List Int) (G : List (List Int)) : Prop :=
  ∀ i, i < d.num_states.toNat → ∀ sym ∈ d.alphabet,
    glook G (pVal part i).toNat sym.toNat = -1 ∨
    glook G (pVal part i).toNat sym.toNat = vcell d part i sym

/-- The accepting array under construction: each block entry is still
unwritten or matches the finality of the block's states. -/
def FInv (d : DFA) (part : List Int) (F : List Bool) : Prop :=
  F.length = MAX_STATES ∧
  (∀ i, i < d.num_states.toNat →
    F.getD (pVal part i).toNat false = false ∨
    F.getD (pVal part i).toNat false = d.final_states.getD i false)

theorem setCell_shape (G : List (List Int)) (q c : Nat) (v : Int)
    (hq : q < MAX_STATES) (h : GShape G) : GShape (setCell G q c v) := by
  obtain ⟨hl, hr⟩ := h
  constructor
  · unfold setCell
    rw [List.length_set]
    exact hl
  · intro r hrm
    unfold setCell at hrm
    rcases List.mem_or_eq_of_mem_set hrm with hold | heqr
    · exact hr r hold
    · have hq' : q < G.length := by rw [hl]; exact hq
      have hlen : (G.getD q []).length = MAX_ALPHABET := by
        rw [List.getD_eq_getElem?_getD, List.getElem?_eq_getElem hq']
        exact hr _ (List.getElem_mem hq')
      rw [heqr, List.length_set]
      exact hlen

theorem glook_setCell_self (G : List (List Int)) (q c : Nat) (v : Int)
    (hs : GShape G) (hq : q < MAX_STATES) (hc : c < MAX_ALPHABET) :
    glook (setCell G q c v) q c = v := by
  unfold glook setCell
  have hq' : q < G.length := by rw [hs.1]; exact hq
  rw [getD_set_self _ _ _ _ hq']
  have hrowlen : (G.getD q []).length = MAX_ALPHABET := by
    rw [List.getD_eq_getElem?_getD, List.getElem?_eq_getElem hq']
    exact hs.2 _ (List.getElem_mem hq')
  rw [getD_set_self _ _ _ _ (by rw [hrowlen]; exact hc)]

theorem glook_setCell_ne (G : List (List Int)) (q c : Nat) (v : Int)
    (q' c' : Nat) (h : q' ≠ q ∨ c' ≠ c) :
    glook (setCell G q c v) q' c' = glook G q' c' := by
  unfold glook setCell
  by_cases hqq : q' = q
  · subst hqq
    have hc' : c' ≠ c := by
      rcases h with h1 | h2
      · exact absurd rfl h1
      · exact h2
    by_cases hq' : q' < G.length
    · rw [getD_set_self _ _ _ _ hq']
      rw [getD_set_of_ne _ _ _ _ _ (fun he => hc' he.symm)]
    · push_neg at hq'
      have h1 : (G.set q' ((G.getD q' []).set c v)).getD q' [] = [] :=
        getD_of_ge _ _ _ (by rw [List.length_set]; omega)
      have h2 : G.getD q' [] = [] := getD_of_ge _ _ _ (by omega)
      rw [h1, h2]
  · rw [getD_set_of_ne _ _ _ _ _ (fun he => hqq he.symm)]

/-- Partition ids of live states fit in the MAX_STATES arrays. -/
theorem partRow_bound (d : DFA) (part : List Int) (npI : Int)
    (hInv : PartInv d part npI)
    (hn : d.num_states.toNat + 1 ≤ MAX_STATES) :
    ∀ i, i < d.num_states.toNat → (pVal part i).toNat < MAX_STATES := by
  intro i hi
  have ha := hInv.2.2.1 i hi
  have hbound := hInv.2.2.2.2.2.1
  obtain ⟨i0, hi0, hl0⟩ := hInv.2.2.2.2.2.2
  have hcnt : 1 ≤ countLow d.num_states.toNat part :=
    countP_pos_of_mem _ _ i0 (List.mem_range.mpr hi0) (decide_eq_true hl0)
  unfold MAX_STATES at hn ⊢
  omega

/-- The empty grid reads -1 everywhere. -/
theorem glook_zero (q c : Nat) :
    glook (List.replicate MAX_STATES (List.replicate MAX_ALPHABET (-1 : Int)))
      q c = -1 := by
  unfold glook
  by_cases hq : q < MAX_STATES
  · rw [getD_replicate _ _ _ _ hq]
    by_cases hc : c < MAX_ALPHABET
    · rw [getD_replicate _ _ _ _ hc]
    · rw [getD_of_ge _ _ _ (by rw [List.length_replicate]; omega)]
  · have h1 : (List.replicate MAX_STATES
        (List.replicate MAX_ALPHABET (-1 : Int))).getD q [] = [] :=
      getD_of_ge _ _ _ (by rw [List.length_replicate]; omega)
    rw [h1]
    rw [getD_of_ge _ _ _ (Nat.zero_le c)]

theorem GShape_zero :
    GShape (List.replicate MAX_STATES
      (List.replicate MAX_ALPHABET (-1 : Int))) := by
  constructor
  · rw [List.length_replicate]
  · intro r hrm
    rw [List.eq_of_mem_replicate hrm, List.length_replicate]

/- ===== one symbol write of the rebuild ===== -/

theorem target_lt (d : DFA) (hwf : MinWF d) (j : Nat)
    (hj : j < d.num_states.toNat) (sym : Int) (hsym : sym ∈ d.alphabet)
    (hne : cellOf d j sym ≠ -1) :
    (cellOf d j sym).toNat < d.num_states.toNat := by
  have htb := hwf.2.2.2.2.2 j hj sym hsym
  rcases htb with h | h
  · exact absurd h hne
  · omega

theorem rowStep_ginv (d : DFA) (part : List Int) (npI : Int)
    (hInv : PartInv d part npI) (hStab : StableP d part) (hwf : MinWF d)
    (j : Nat) (hj : j < d.num_states.toNat)
    (sym' : Int) (hsym' : sym' ∈ d.alphabet)
    (G : List (List Int)) (hsh : GShape G) (hgi : GInv d part G) :
    GShape (rowStep d part j G sym') ∧
    GInv d part (rowStep d part j G sym') ∧
    (∀ q c, glook (rowStep d part j G sym') q c = glook G q c ∨
      0 ≤ glook (rowStep d part j G sym') q c) ∧
    (cellOf d j sym' ≠ -1 →
      glook (rowStep d part j G sym') (pVal part j).toNat sym'.toNat =
        vcell d part j sym') := by
  unfold rowStep
  dsimp only
  by_cases hnext : cellOf d j sym' = -1
  · rw [if_neg (fun hc => hc hnext)]
    exact ⟨hsh, hgi, fun q c => Or.inl rfl, fun hc => absurd hnext hc⟩
  · rw [if_pos hnext]
    have htn := target_lt d hwf j hj sym' hsym' hnext
    have hv := hInv.2.2.1 (cellOf d j sym').toNat htn
    have hrowj := partRow_bound d part npI hInv hwf.2.1 j hj
    have hsymb := hwf.2.2.2.2.1 sym' hsym'
    have hsymn : sym'.toNat < MAX_ALPHABET := by
      unfold MAX_ALPHABET at hsymb ⊢
      omega
    have hvc : vcell d part j sym' = pVal part (cellOf d j sym').toNat := by
      unfold vcell
      rw [if_neg hnext]
    refine ⟨setCell_shape _ _ _ _ hrowj hsh, ?_, ?_, ?_⟩
    · intro i hi sym hsym
      by_cases hrc : (pVal part i).toNat = (pVal part j).toNat ∧
          sym.toNat = sym'.toNat
      · obtain ⟨hr, hc⟩ := hrc
        have hpv : pVal part i = pVal part j := by
          have h1 := (hInv.2.2.1 i hi).1
          have h2 := (hInv.2.2.1 j hj).1
          omega
        have hsymb2 := hwf.2.2.2.2.1 sym hsym
        have hse : sym = sym' := by omega
        subst hse
        rw [hr]
        rw [glook_setCell_self _ _ _ _ hsh hrowj hsymn]
        right
        have hpair := hStab i j hi hj hpv sym hsym
        have hci : cellOf d i sym ≠ -1 := fun he => hnext (hpair.1.mp he)
        have htt := hpair.2 hci hnext
        unfold vcell
        rw [if_neg hci]
        exact htt.symm
      · have hne : (pVal part i).toNat ≠ (pVal part j).toNat ∨
            sym.toNat ≠ sym'.toNat := by
          by_cases h1 : (pVal part i).toNat = (pVal part j).toNat
          · right; exact fun h2 => hrc ⟨h1, h2⟩
          · left; exact h1
        rw [glook_setCell_ne _ _ _ _ _ _ hne]
        exact hgi i hi sym hsym
    · intro q c
      by_cases hrc : q = (pVal part j).toNat ∧ c = sym'.toNat
      · right
        rw [hrc.1, hrc.2, glook_setCell_self _ _ _ _ hsh hrowj hsymn]
        exact hv.1
      · left
        apply glook_setCell_ne
        by_cases h1 : q = (pVal part j).toNat
        · right; exact fun h2 => hrc ⟨h1, h2⟩
        · left; exact h1
    · intro _
      rw [glook_setCell_self _ _ _ _ hsh hrowj hsymn, hvc]

/- ===== the fold over the alphabet for one state ===== -/

theorem rowFold_ginv (d : DFA) (part : List Int) (npI : Int)
    (hInv : PartInv d part npI) (hStab : StableP d part) (hwf : MinWF d)
    (j : Nat) (hj : j < d.num_states.toNat) :
    ∀ S : List Int, (∀ s ∈ S, s ∈ d.alphabet) →
      ∀ G, GShape G → GInv d part G →
        GShape (S.foldl (rowStep d part j) G) ∧
        GInv d part (S.foldl (rowStep d part j) G) ∧
        (∀ q c, glook (S.foldl (rowStep d part j) G) q c = glook G q c ∨
          0 ≤ glook (S.foldl (rowStep d part j) G) q c) ∧
        (∀ sym ∈ S, cellOf d j sym ≠ -1 →
          0 ≤ glook (S.foldl (rowStep d part j) G)
            (pVal part j).toNat sym.toNat) := by
  intro S
  induction S with
  | nil =>
    intro _ G hsh hgi
    exact ⟨hsh, hgi, fun q c => Or.inl rfl, by simp⟩
  | cons sym0 S' ih =>
    intro hmem G hsh hgi
    rw [List.foldl_cons]
    have hsym0 := hmem sym0 (List.mem_cons_self _ _)
    obtain ⟨hsh1, hgi1, hmono1, hdef1⟩ :=
      rowStep_ginv d part npI hInv hStab hwf j hj sym0 hsym0 G hsh hgi
    obtain ⟨hsh2, hgi2, hmono2, hdef2⟩ :=
      ih (fun s hs => hmem s (List.mem_cons_of_mem _ hs)) _ hsh1 hgi1
    refine ⟨hsh2, hgi2, ?_, ?_⟩
    · intro q c
      rcases hmono2 q c with h2 | h2
      · rw [h2]
        exact hmono1 q c
      · right; exact h2
    · intro sym hsymm hcell
      rcases List.mem_cons.mp hsymm with h1 | h2
      · subst h1
        have hval := hdef1 hcell
        have htn := target_lt d hwf j hj sym hsym0 hcell
        have hge : 0 ≤ glook (rowStep d part j G sym)
            (pVal part j).toNat sym.toNat := by
          rw [hval]
          unfold vcell
          rw [if_neg hcell]
          exact (hInv.2.2.1 (cellOf d j sym).toNat htn).1
        rcases hmono2 (pVal part j).toNat sym.toNat with h2 | h2
        · rw [h2]
          exact hge
        · exact h2
      · exact hdef2 sym h2 hcell

/- ===== one state of the rebuild ===== -/

theorem rebuildStep_inv (d : DFA) (part : List Int) (npI : Int)
    (hInv : PartInv d part npI) (hStab : StableP d part) (hwf : MinWF d)
    (j : Nat) (hj : j < d.num_states.toNat)
    (gf : List (List Int) × List Bool)
    (hsh : GShape gf.1) (hgi : GInv d part gf.1) (hfi : FInv d part gf.2) :
    GShape (rebuildStep d part gf j).1 ∧
    GInv d part (rebuildStep d part gf j).1 ∧
    FInv d part (rebuildStep d part gf j).2 ∧
    (∀ q c, glook (rebuildStep d part gf j).1 q c = glook gf.1 q c ∨
      0 ≤ glook (rebuildStep d part gf j).1 q c) ∧
    (∀ r, (rebuildStep d part gf j).2.getD r false = gf.2.getD r false ∨
      (rebuildStep d part gf j).2.getD r false = true) ∧
    (∀ sym ∈ d.alphabet, cellOf d j sym ≠ -1 →
      0 ≤ glook (rebuildStep d part gf j).1 (pVal part j).toNat sym.toNat) ∧
    (d.final_states.getD j false = true →
      (rebuildStep d part gf j).2.getD (pVal part j).toNat false = true) := by
  have hrowj := partRow_bound d part npI hInv hwf.2.1 j hj
  have hlenF : (pVal part j).toNat < gf.2.length := by
    rw [hfi.1]
    exact hrowj
  obtain ⟨hshA, hgiA, hmonoA, hdefA⟩ :=
    rowFold_ginv d part npI hInv hStab hwf j hj d.alphabet
      (fun s hs => hs) gf.1 hsh hgi
  unfold rebuildStep
  dsimp only
  by_cases hfj : d.final_states.getD j false = true
  · rw [if_pos hfj]
    refine ⟨hshA, hgiA, ?_, hmonoA, ?_, hdefA, ?_⟩
    · refine ⟨by rw [List.length_set]; exact hfi.1, ?_⟩
      intro i hi
      by_cases hrr : (pVal part i).toNat = (pVal part j).toNat
      · have hpv : pVal part i = pVal part j := by
          have h1 := (hInv.2.2.1 i hi).1
          have h2 := (hInv.2.2.1 j hj).1
          omega
        have hfij := hInv.2.2.2.2.1 i j hi hj hpv
        right
        rw [hrr, getD_set_self _ _ _ _ hlenF, hfij, hfj]
      · rw [getD_set_of_ne _ _ _ _ _ (fun he => hrr he.symm)]
        exact hfi.2 i hi
    · intro r
      by_cases hrr : r = (pVal part j).toNat
      · right
        rw [hrr, getD_set_self _ _ _ _ hlenF]
      · left
        rw [getD_set_of_ne _ _ _ _ _ (fun he => hrr he.symm)]
    · intro _
      rw [getD_set_self _ _ _ _ hlenF]
  · rw [if_neg hfj]
    refine ⟨hshA, hgiA, hfi, hmonoA, fun r => Or.inl rfl, hdefA, ?_⟩
    intro hc
    exact absurd hc hfj

/- ===== the fold over all original states ===== -/

theorem rebuildFold_inv (d : DFA) (part : List Int) (npI : Int)
    (hInv : PartInv d part npI) (hStab : StableP d part) (hwf : MinWF d) :
    ∀ L : List Nat, (∀ x ∈ L, x < d.num_states.toNat) →
      ∀ gf : List (List Int) × List Bool,
        GShape gf.1 → GInv d part gf.1 → FInv d part gf.2 →
        GShape (L.foldl (rebuildStep d part) gf).1 ∧
        GInv d part (L.foldl (rebuildStep d part) gf).1 ∧
        FInv d part (L.foldl (rebuildStep d part) gf).2 ∧
        (∀ q c, glook (L.foldl (rebuildStep d part) gf).1 q c =
            glook gf.1 q c ∨
          0 ≤ glook (L.foldl (rebuildStep d part) gf).1 q c) ∧
        (∀ r, (L.foldl (rebuildStep d part) gf).2.getD r false =
            gf.2.getD r false ∨
          (L.foldl (rebuildStep d part) gf).2.getD r false = true) ∧
        (∀ j ∈ L,
          (∀ sym ∈ d.alphabet, cellOf d j sym ≠ -1 →
            0 ≤ glook (L.foldl (rebuildStep d part) gf).1
              (pVal part j).toNat sym.toNat) ∧
          (d.final_states.getD j false = true →
            (L.foldl (rebuildStep d part) gf).2.getD
              (pVal part j).toNat false = true)) := by
  intro L
  induction L with
  | nil =>
    intro _ gf hsh hgi hfi
    exact ⟨hsh, hgi, hfi, fun q c => Or.inl rfl, fun r => Or.inl rfl, by simp⟩
  | cons j0 L' ih =>
    intro hmem gf hsh hgi hfi
    rw [List.foldl_cons]
    have hj0 := hmem j0 (List.mem_cons_self _ _)
    obtain ⟨hsh1, hgi1, hfi1, hmonoG1, hmonoF1, hdefG1, hdefF1⟩ :=
      rebuildStep_inv d part npI hInv hStab hwf j0 hj0 gf hsh hgi hfi
    obtain ⟨hsh2, hgi2, hfi2, hmonoG2, hmonoF2, hdefs2⟩ :=
      ih (fun x hx => hmem x (List.mem_cons_of_mem _ hx)) _ hsh1 hgi1 hfi1
    refine ⟨hsh2, hgi2, hfi2, ?_, ?_, ?_⟩
    · intro q c
      rcases hmonoG2 q c with h2 | h2
      · rw [h2]
        exact hmonoG1 q c
      · right; exact h2
    · intro r
      rcases hmonoF2 r with h2 | h2
      · rw [h2]
        exact hmonoF1 r
      · right; exact h2
    · intro j hjm
      rcases List.mem_cons.mp hjm with h1 | h2
      · subst h1
        constructor
        · intro sym hsym hcell
          have hge := hdefG1 sym hsym hcell
          rcases hmonoG2 (pVal part j).toNat sym.toNat with h2 | h2
          · rw [h2]
            exact hge
          · exact h2
        · intro hfj
          have htrue := hdefF1 hfj
          rcases hmonoF2 (pVal part j).toNat with h2 | h2
          · rw [h2]
            exact htrue
          · exact h2
      · exact hdefs2 j h2

/- ===== what the rebuilt DFA's table and accepting array hold ===== -/

theorem minRebuild_glook (d : DFA) (part : List Int) (npI : Int)
    (hInv : PartInv d part npI) (hStab : StableP d part) (hwf : MinWF d)
    (i : Nat) (hi : i < d.num_states.toNat) (sym : Int)
    (hsym : sym ∈ d.alphabet) :
    glook (minRebuild d part).1 (pVal part i).toNat sym.toNat =
      vcell d part i sym := by
  unfold minRebuild
  have hG0 : GInv d part (List.replicate MAX_STATES
      (List.replicate MAX_ALPHABET (-1 : Int))) :=
    fun i' _ sym' _ => Or.inl (glook_zero _ _)
  have hF0v : ∀ r, (List.replicate MAX_STATES false).getD r false = false := by
    intro r
    by_cases h : r < MAX_STATES
    · exact getD_replicate _ _ _ _ h
    · exact getD_of_ge _ _ _ (by rw [List.length_replicate]; omega)
  have hF0 : FInv d part (List.replicate MAX_STATES false) :=
    ⟨List.length_replicate _ _, fun i' _ => Or.inl (hF0v _)⟩
  obtain ⟨hshR, hgiR, hfiR, hmonoG, hmonoF, hdefs⟩ :=
    rebuildFold_inv d part npI hInv hStab hwf
      (List.range d.num_states.toNat) (fun x hx => List.mem_range.mp hx)
      (List.replicate MAX_STATES (List.replicate MAX_ALPHABET (-1 : Int)),
        List.replicate MAX_STATES false) GShape_zero hG0 hF0
  by_cases hcell : cellOf d i sym = -1
  · rcases hgiR i hi sym hsym with h | h
    · rw [h]
      unfold vcell
      rw [if_pos hcell]
    · exact h
  · have hge := (hdefs i (List.mem_range.mpr hi)).1 sym hsym hcell
    rcases hgiR i hi sym hsym with h | h
    · rw [h] at hge
      omega
    · exact h

theorem minRebuild_flook (d : DFA) (part : List Int) (npI : Int)
    (hInv : PartInv d part npI) (hStab : StableP d part) (hwf : MinWF d)
    (i : Nat) (hi : i < d.num_states.toNat) :
    (minRebuild d part).2.getD (pVal part i).toNat false =
      d.final_states.getD i false := by
  unfold minRebuild
  have hG0 : GInv d part (List.replicate MAX_STATES
      (List.replicate MAX_ALPHABET (-1 : Int))) :=
    fun i' _ sym' _ => Or.inl (glook_zero _ _)
  have hF0v : ∀ r, (List.replicate MAX_STATES false).getD r false = false := by
    intro r
    by_cases h : r < MAX_STATES
    · exact getD_replicate _ _ _ _ h
    · exact getD_of_ge _ _ _ (by rw [List.length_replicate]; omega)
  have hF0 : FInv d part (List.replicate MAX_STATES false) :=
    ⟨List.length_replicate _ _, fun i' _ => Or.inl (hF0v _)⟩
  obtain ⟨hshR, hgiR, hfiR, hmonoG, hmonoF, hdefs⟩ :=
    rebuildFold_inv d part npI hInv hStab hwf
      (List.range d.num_states.toNat) (fun x hx => List.mem_range.mp hx)
      (List.replicate MAX_STATES (List.replicate MAX_ALPHABET (-1 : Int)),
        List.replicate MAX_STATES false) GShape_zero hG0 hF0
  by_cases hf : d.final_states.getD i false = true
  · rw [hf]
    exact (hdefs i (List.mem_range.mpr hi)).2 hf
  · rw [Bool.not_eq_true] at hf
    rw [hf]
    rcases hfiR.2 i hi with h | h
    · exact h
    · rw [h, hf]

/- ===== stepping the original and the rebuilt DFA in lockstep ===== -/

theorem dfa_step_orig (d : DFA) (hwf : MinWF d) (i : Nat)
    (hi : i < d.num_states.toNat) (c : Char)
    (hc : ((c.toNat : Nat) : Int) ∈ d.alphabet) :
    dfa_step d (i : Int) c = cellOf d i ((c.toNat : Nat) : Int) := by
  have hn := hwf.2.1
  have halpha := hwf.2.2.2.2.1 _ hc
  unfold dfa_step
  rw [if_neg (by omega : ¬((i : Int) = -1))]
  unfold dfa_lookup
  rw [if_pos ⟨by omega, by unfold MAX_STATES at hn ⊢; omega,
    by unfold MAX_ALPHABET at halpha ⊢; omega⟩]
  rw [Int.toNat_natCast]
  rfl

theorem dfa_step_min (d : DFA) (hwf : MinWF d) (i : Nat)
    (hi : i < d.num_states.toNat) (c : Char)
    (hc : ((c.toNat : Nat) : Int) ∈ d.alphabet) :
    dfa_step (minimize_dfa d) (pVal (refinedPair d).1 i) c =
      vcell d (refinedPair d).1 i ((c.toNat : Nat) : Int) := by
  obtain ⟨hInv, hStab⟩ := refined_post d hwf
  have hpv0 := (hInv.2.2.1 i hi).1
  have hrow := partRow_bound d _ _ hInv hwf.2.1 i hi
  have halpha := hwf.2.2.2.2.1 _ hc
  unfold dfa_step
  rw [if_neg (by omega : ¬(pVal (refinedPair d).1 i = -1))]
  unfold dfa_lookup
  rw [if_pos ⟨hpv0, by unfold MAX_STATES at hrow ⊢; omega,
    by unfold MAX_ALPHABET at halpha ⊢; omega⟩]
  have hT : (minimize_dfa d).transition =
      (minRebuild d (refinedPair d).1).1 := by
    rw [minimize_dfa_parts]
  rw [hT]
  exact minRebuild_glook d _ _ hInv hStab hwf i hi _ hc

/- ===== the two runs stay related ===== -/

theorem min_run_sim (d : DFA) (hwf : MinWF d) :
    ∀ w : List Char, (∀ c ∈ w, ((c.toNat : Nat) : Int) ∈ d.alphabet) →
      ∀ i, i < d.num_states.toNat →
        (dfa_run d (i : Int) w = -1 ∧
          dfa_run (minimize_dfa d) (pVal (refinedPair d).1 i) w = -1) ∨
        (∃ j, j < d.num_states.toNat ∧ dfa_run d (i : Int) w = (j : Int) ∧
          dfa_run (minimize_dfa d) (pVal (refinedPair d).1 i) w =
            pVal (refinedPair d).1 j) := by
  intro w
  induction w with
  | nil =>
    intro _ i hi
    right
    exact ⟨i, hi, rfl, rfl⟩
  | cons c w' ih =>
    intro hcw i hi
    have hc := hcw c (List.mem_cons_self _ _)
    have hrun_d : dfa_run d (i : Int) (c :: w') =
        dfa_run d (dfa_step d (i : Int) c) w' := rfl
    have hrun_M : dfa_run (minimize_dfa d) (pVal (refinedPair d).1 i)
        (c :: w') =
        dfa_run (minimize_dfa d)
          (dfa_step (minimize_dfa d) (pVal (refinedPair d).1 i) c) w' := rfl
    rw [hrun_d, hrun_M, dfa_step_orig d hwf i hi c hc,
      dfa_step_min d hwf i hi c hc]
    by_cases hcell : cellOf d i ((c.toNat : Nat) : Int) = -1
    · left
      rw [hcell]
      unfold vcell
      rw [if_pos hcell]
      exact ⟨dfa_run_dead d w', dfa_run_dead (minimize_dfa d) w'⟩
    · have htn := target_lt d hwf i hi _ hc hcell
      have hcast : ((cellOf d i ((c.toNat : Nat) : Int)).toNat : Int) =
          cellOf d i ((c.toNat : Nat) : Int) := by
        apply Int.toNat_of_nonneg
        rcases hwf.2.2.2.2.2 i hi _ hc with h | h
        · exact absurd h hcell
        · exact h.1
      have hvc : vcell d (refinedPair d).1 i ((c.toNat : Nat) : Int) =
          pVal (refinedPair d).1 (cellOf d i ((c.toNat : Nat) : Int)).toNat := by
        unfold vcell
        rw [if_neg hcell]
      rw [← hcast, hvc]
      exact ih (fun x hx => hcw x (List.mem_cons_of_mem _ hx))
        (cellOf d i ((c.toNat : Nat) : Int)).toNat htn

/- ===== language preservation ===== -/

theorem minimize_dfa_preserves (d : DFA) (hwf : MinWF d)
    (w : List Char) (hw : ∀ c ∈ w, ((c.toNat : Nat) : Int) ∈ d.alphabet) :
    dfa_accepts (minimize_dfa d) w = dfa_accepts d w := by
  obtain ⟨hInv, hStab⟩ := refined_post d hwf
  have hs0 := hwf.2.2.1
  have hsn := hwf.2.2.2.1
  have hstart : d.start_state = ((d.start_state.toNat : Nat) : Int) :=
    (Int.toNat_of_nonneg hs0).symm
  have hstartn : d.start_state.toNat < d.num_states.toNat := by omega
  have hMstart : (minimize_dfa d).start_state =
      pVal (refinedPair d).1 d.start_state.toNat := by
    rw [minimize_dfa_parts]
    rfl
  rcases min_run_sim d hwf w hw d.start_state.toNat hstartn with
    hdead | ⟨j, hj, hrd, hrm⟩
  · have hrd2 : dfa_run d d.start_state w = -1 := by
      rw [hstart]
      exact hdead.1
    have hrm2 : dfa_run (minimize_dfa d) (minimize_dfa d).start_state w =
        -1 := by
      rw [hMstart]
      exact hdead.2
    unfold dfa_accepts
    rw [hrd2, hrm2]
    simp
  · have hrd2 : dfa_run d d.start_state w = (j : Int) := by
      rw [hstart]
      exact hrd
    have hrm2 : dfa_run (minimize_dfa d) (minimize_dfa d).start_state w =
        pVal (refinedPair d).1 j := by
      rw [hMstart]
      exact hrm
    have hpj0 := (hInv.2.2.1 j hj).1
    have hfl : (minimize_dfa d).final_states.getD
        (pVal (refinedPair d).1 j).toNat false =
        d.final_states.getD j false := by
      have hT2 : (minimize_dfa d).final_states =
          (minRebuild d (refinedPair d).1).2 := by
        rw [minimize_dfa_parts]
      rw [hT2]
      exact minRebuild_flook d _ _ hInv hStab hwf j hj
    unfold dfa_accepts finals_lookup
    rw [hrd2, hrm2]
    dsimp only
    rw [hfl]
    rw [decide_eq_true (show pVal (refinedPair d).1 j ≠ -1 by omega)]
    rw [decide_eq_true (show (0 : Int) ≤ pVal (refinedPair d).1 j by omega)]
    rw [decide_eq_true (show ((j : Nat) : Int) ≠ -1 by omega)]
    rw [decide_eq_true (show (0 : Int) ≤ ((j : Nat) : Int) by omega)]
    rw [Int.toNat_natCast]

set_option maxRecDepth 100000 in
/-- C3 (amended): minimize_dfa returns a DFA over the same alphabet
accepting exactly the same strings over that alphabet, for every
well-formed DFA (at least one state, fewer than MAX_STATES of them,
start state in range, alphabet symbols valid character codes,
transition targets in range); but it is not a minimizer: its initial
partition always allocates two block ids even when one class is empty,
so the state count can exceed both the minimum and the input's count
(see the counterexample). -/
theorem C3_minimize_amended :
    (∀ d : DFA, (minimize_dfa d).alphabet = d.alphabet ∧
      (minimize_dfa d).alphabet_size = d.alphabet_size) ∧
    (∀ d : DFA, MinWF d → ∀ w : List Char,
      (∀ c ∈ w, ((c.toNat : Nat) : Int) ∈ d.alphabet) →
      dfa_accepts (minimize_dfa d) w = dfa_accepts d w) :=
  ⟨fun _ => ⟨rfl, rfl⟩, fun d hwf w hw => minimize_dfa_preserves d hwf w hw⟩

set_option maxRecDepth 100000 in
/-- Witness for C3: the one-state self-loop DFA is well-formed, and the
minimized DFA agrees with it on the string "a". -/
theorem C3_minimize_amended_witness :
    MinWF exLoop ∧
    (∀ c ∈ ['a'], ((c.toNat : Nat) : Int) ∈ exLoop.alphabet) ∧
    dfa_accepts (minimize_dfa exLoop) ['a'] = dfa_accepts exLoop ['a'] ∧
    (minimize_dfa exLoop).alphabet = exLoop.alphabet :=
  ⟨by decide, by decide,
    C3_minimize_amended.2 exLoop (by decide) ['a'] (by decide),
    (C3_minimize_amended.1 exLoop).1⟩


/- ===== Claim C2 ===== -/

theorem did_run1 (s : List Char) :
    dfa_run (nfa_to_dfa create_nfa_for_identifier) 1 s =
      (if s.all isWordU = true then 1 else -1) := by
  induction s with
  | nil => rfl
  | cons c cs ih =>
    unfold dfa_run
    simp only [List.foldl_cons]
    rw [did_step1 c]
    by_cases hc : isWordCode c.toNat = true
    · rw [if_pos hc]
      unfold dfa_run at ih
      rw [ih]
      have hall : (c :: cs).all isWordU = cs.all isWordU := by
        simp [List.all_cons, isWordU, hc]
      rw [hall]
    · rw [if_neg hc]
      rw [show List.foldl (dfa_step (nfa_to_dfa create_nfa_for_identifier)) (-1) cs
        = -1 from dfa_run_dead _ cs]
      rw [if_neg (show ¬(c :: cs).all isWordU = true by
        simp [List.all_cons, isWordU, hc])]

/-- The accepted language of the determinized identifier NFA, as a
Boolean equation. -/
theorem identifier_dfa_accepts (s : List Char) :
    dfa_accepts (nfa_to_dfa create_nfa_for_identifier) s = matchesIdent s := by
  have hfin0 : finals_lookup (nfa_to_dfa create_nfa_for_identifier) 0 = false := by
    unfold finals_lookup
    rw [did_finals]
    decide
  have hfin1 : finals_lookup (nfa_to_dfa create_nfa_for_identifier) 1 = true := by
    unfold finals_lookup
    rw [did_finals]
    decide
  unfold dfa_accepts
  rw [did_start]
  cases s with
  | nil =>
    show (decide ((0 : Int) ≠ -1) &&
      finals_lookup (nfa_to_dfa create_nfa_for_identifier) 0) = false
    rw [hfin0]
    decide
  | cons c cs =>
    have hsplit : dfa_run (nfa_to_dfa create_nfa_for_identifier) 0 (c :: cs) =
        dfa_run (nfa_to_dfa create_nfa_for_identifier)
          (dfa_step (nfa_to_dfa create_nfa_for_identifier) 0 c) cs := rfl
    rw [hsplit, did_step0 c]
    simp only [matchesIdent]
    by_cases hl : isLetterCode c.toNat = true
    · have hlu : isLetterU c = true := hl
      rw [if_pos hl, did_run1 cs, hlu]
      by_cases ha : cs.all isWordU = true
      · rw [if_pos ha, ha, hfin1]
        decide
      · have ha' : cs.all isWordU = false := by
          revert ha
          cases cs.all isWordU <;> simp
        rw [if_neg ha, ha']
        simp
    · have hlu : isLetterU c = false := by
        revert hl
        unfold isLetterU
        cases isLetterCode c.toNat <;> simp
      rw [if_neg hl, dfa_run_dead, hlu]
      simp

/-- C2: The DFA obtained by determinizing the identifier NFA accepts a
string iff it matches `[A-Za-z_][A-Za-z_0-9]*` (non-empty, starts with
a letter or underscore, remaining characters letters, digits or
underscores). -/
theorem C2_identifier_dfa_language (s : List Char) :
    dfa_accepts (nfa_to_dfa create_nfa_for_identifier) s = true ↔
      matchesIdent s = true := by
  rw [identifier_dfa_accepts s]

end C0
